import Mathlib

/-!
Numeric range tree (src/numeric_index.c).

A shallow embedding of the numeric index: the quick-select used to pick a
split value, the range bucket, the range tree node with its insertion and
split, the range query, the bucket iterator (read / skip-to) and the
save / load pair.

Conventions of the embedding.

* A C `double` is a rational number (`ℚ`): the code only compares values,
  copies them and, in `qselect`, passes them through an `int` temporary;
  NaN and the infinities are outside the model. The `int` temporary is
  32 bits wide: a value that does not fit is converted to `INT_MIN`, as the
  conversion instruction of the build target does (`truncToInt`).
* A pointer to a node is a value of `NumericRangeNode`, `null` being the
  NULL pointer; a pointer to a bucket is an `Option NumericRange`.
* The entry array of a bucket is the list of its `size` used slots,
  `size` being the length of that list.
* A function that dereferences NULL, reads outside an array or does not
  terminate returns `none`.
* Pointer identity of buckets (used by `__pushRange` and by the
  `vmax != vmin` test) is identity of the path from the root to the
  owning node (`false` = left, `true` = right).
* Counters, sizes and doc-ids held in struct fields are natural numbers (the
  struct declarations are not among the sources). The `u_int` locals of
  `NR_SkipTo` wrap modulo 2^32 and the `(int)` casts of `__cmd_docId` are
  two's complement, as written in the source.
-/

namespace NumericIndex

/-! ## Constants -/

def NR_EXPONENT : Nat := 2
def NR_MAX_DEPTH : Nat := 2

/-! ## qselect -/

/-- Least value of the 32-bit `int`. -/
def INT_MIN : Int := -2147483648

/-- Greatest value of the 32-bit `int`. -/
def INT_MAX : Int := 2147483647

/-- Truncation toward zero of a `double`, as a mathematical integer. -/
def truncate (q : ℚ) : Int := if 0 ≤ q then ⌊q⌋ else ⌈q⌉

/-- Conversion `double -> int -> double` of the `int tmp` temporary of the
SWAP helper. `tmp` is a 32-bit `int`: a value whose truncation toward zero
fits in `int` is truncated; for any other value the C conversion is undefined
and the model takes what the conversion instruction of the build target
(x86-64 `cvttsd2si`) yields, `INT_MIN`. The conversion back to `double` is
exact. -/
def truncToInt (q : ℚ) : ℚ :=
  if INT_MIN ≤ truncate q ∧ truncate q ≤ INT_MAX then ((truncate q : Int) : ℚ)
  else ((INT_MIN : Int) : ℚ)

/-- The SWAP(a, b) helper of `qselect`: `tmp = v[a]; v[a] = v[b]; v[b] = tmp`
with `tmp` declared `int`. -/
def SWAP (v : List ℚ) (a b : Nat) : List ℚ :=
  let tmp := truncToInt (v.getD a 0)
  (v.set a (v.getD b 0)).set b tmp

/-- One iteration of the partition loop of `qselect` at index `i`; the state
is the array and `st`. -/
def qselectStep (len : Nat) (s : List ℚ × Nat) (i : Nat) : List ℚ × Nat :=
  if s.1.getD i 0 > s.1.getD (len - 1) 0 then s
  else (SWAP s.1 i s.2, s.2 + 1)

/-- The partition loop `for (st = i = 0; i < len - 1; i++)`. -/
def qselectLoop (v : List ℚ) : List ℚ × Nat :=
  (List.range (v.length - 1)).foldl (qselectStep v.length) (v, 0)

/-- The recursion of `qselect(v, len, k)` on the array slice `v` of length
`len = v.length`, bounded by `fuel` nested calls. -/
def qselectFuel : Nat → List ℚ → Nat → Option ℚ
  | 0, _, _ => none
  | fuel + 1, v, k =>
    if v.length = 0 then none
    else
      let s := qselectLoop v
      let st := s.2
      let w := SWAP s.1 (v.length - 1) st
      if k = st then some (w.getD st 0)
      else if st > k then qselectFuel fuel (w.take st) k
      else qselectFuel fuel (w.drop st) (k - st)

/-- The function `qselect(v, len, k)` with `len = v.length`. -/
def qselect (v : List ℚ) (k : Nat) : Option ℚ :=
  qselectFuel (3 * v.length) v k

/-! ## Range bucket -/

structure NumericRangeEntry where
  docId : Nat
  value : ℚ
  deriving DecidableEq

/-- Modelled from the spec: the declaration of the struct (numeric_index.h)
is not among the sources; the fields are the ones the code uses, counters
being natural numbers. `size` is the length of `entries`. -/
structure NumericRange where
  minVal : ℚ
  maxVal : ℚ
  cap : Nat
  card : Nat
  splitCard : Nat
  entries : List NumericRangeEntry
  deriving DecidableEq

def NumericRange.size (n : NumericRange) : Nat := n.entries.length

/-- Function `NumericRange_Within`; a NULL bucket is `none`. -/
def NumericRange_Within (n : Option NumericRange) (min max : ℚ) : Bool :=
  match n with
  | none => false
  | some r => decide (r.minVal ≥ min) && decide (r.maxVal < max)

/-- Function `NumericRange_Contains`; a NULL bucket is `none`. -/
def NumericRange_Contains (n : Option NumericRange) (min max : ℚ) : Bool :=
  match n with
  | none => false
  | some r => decide (r.minVal ≤ min) && decide (r.maxVal > max)

/-- Function `NumericRange_Add`: the updated bucket and the returned
cardinality. -/
def NumericRange_Add (n : NumericRange) (docId : Nat) (value : ℚ) (checkCard : Bool) :
    NumericRange × Nat :=
  let cap :=
    if n.size ≥ n.cap then
      n.cap + (if n.cap ≠ 0 then min (n.cap / 2) (1024 * 1024) else 2)
    else n.cap
  let add : Bool :=
    if checkCard then !(n.entries.any fun e => decide (e.value = value)) else true
  let card := if add then n.card + 1 else n.card
  let minVal := if value < n.minVal then value else n.minVal
  let maxVal := if value > n.maxVal then value else n.maxVal
  ({ minVal := minVal, maxVal := maxVal, cap := cap, card := card,
     splitCard := n.splitCard,
     entries := n.entries ++ [{ docId := docId, value := value }] }, card)

/-! ## Range tree node -/

/-- A `NumericRangeNode *`: NULL or a node with its split value, its
levels-since-split counter, its optional bucket and its two children. -/
inductive NumericRangeNode where
  | null : NumericRangeNode
  | node (value : ℚ) (maxDepth : Nat) (range : Option NumericRange)
      (left right : NumericRangeNode) : NumericRangeNode
  deriving DecidableEq

/-- The bucket a freshly created leaf owns. -/
def NewLeafRange (cap : Nat) (min max : ℚ) (splitCard : Nat) : NumericRange :=
  { minVal := min, maxVal := max, cap := cap, card := 0, splitCard := splitCard, entries := [] }

/-- A leaf node owning the bucket `r`, as `NewLeafNode` lays it out. -/
def leafOf (r : NumericRange) : NumericRangeNode := .node 0 0 (some r) .null .null

/-- Function `NewLeafNode`. -/
def NewLeafNode (cap : Nat) (min max : ℚ) (splitCard : Nat) : NumericRangeNode :=
  leafOf (NewLeafRange cap min max splitCard)

/-- The redistribution loop of `NumericRange_Split`: every entry is added,
with cardinality check, to the left bucket when its value is below `split`
and to the right bucket otherwise. -/
def splitStep (split : ℚ) (s : NumericRange × NumericRange) (e : NumericRangeEntry) :
    NumericRange × NumericRange :=
  if e.value < split then ((NumericRange_Add s.1 e.docId e.value true).1, s.2)
  else (s.1, (NumericRange_Add s.2 e.docId e.value true).1)

/-- Function `NumericRange_Split`: the split value and the two new leaves. -/
def NumericRange_Split (n : NumericRange) :
    Option (ℚ × NumericRangeNode × NumericRangeNode) :=
  match qselect (n.entries.map fun e => e.value) (n.size / 2) with
  | none => none
  | some split =>
    let lr := NewLeafRange (n.size / 2 + 1) n.minVal split (1 + n.splitCard * NR_EXPONENT)
    let rr := NewLeafRange (n.size / 2 + 1) split n.maxVal (1 + n.splitCard * NR_EXPONENT)
    let s := n.entries.foldl (splitStep split) (lr, rr)
    some (split, leafOf s.1, leafOf s.2)

/-- The retention step of an internal node after the recursive call returned
`rc`: the counter grows when a split happened below, and the retained bucket
is dropped once the counter exceeds `NR_MAX_DEPTH`. -/
def ageNode (value : ℚ) (maxDepth : Nat) (range : Option NumericRange)
    (left right : NumericRangeNode) (rc : Nat) : NumericRangeNode × Nat :=
  if rc ≠ 0 then
    if maxDepth + 1 > NR_MAX_DEPTH ∧ range.isSome then
      (.node value (maxDepth + 1) none left right, rc)
    else (.node value (maxDepth + 1) range left right, rc)
  else (.node value maxDepth range left right, rc)

/-- Function `NumericRangeNode_Add`: the updated node and the return code. -/
def NumericRangeNode_Add : NumericRangeNode → Nat → ℚ → Option (NumericRangeNode × Nat)
  | .null, _, _ => none
  | .node value maxDepth range .null .null, docId, v =>
    match range with
    | none => none
    | some r =>
      let a := NumericRange_Add r docId v true
      if a.2 ≥ a.1.splitCard then
        match NumericRange_Split a.1 with
        | none => none
        | some (split, lp, rp) => some (.node split 1 (some a.1) lp rp, 1)
      else some (.node value maxDepth (some a.1) .null .null, 0)
  | .node value maxDepth range left right, docId, v =>
    let range1 := range.map fun r => (NumericRange_Add r docId v false).1
    if v < value then
      match NumericRangeNode_Add left docId v with
      | none => none
      | some (left1, rc) => some (ageNode value maxDepth range1 left1 right rc)
    else
      match NumericRangeNode_Add right docId v with
      | none => none
      | some (right1, rc) => some (ageNode value maxDepth range1 left right1 rc)

/-! ## Range tree -/

structure NumericRangeTree where
  root : NumericRangeNode
  numEntries : Nat
  numRanges : Nat
  deriving DecidableEq

/-- Function `NewNumericRangeTree`. -/
def NewNumericRangeTree : NumericRangeTree :=
  { root := NewLeafNode 2 0 0 2, numEntries := 0, numRanges := 1 }

/-- Function `NumericRangeTree_Add`: the updated tree and the return code. -/
def NumericRangeTree_Add (t : NumericRangeTree) (docId : Nat) (value : ℚ) :
    Option (NumericRangeTree × Nat) :=
  match NumericRangeNode_Add t.root docId value with
  | none => none
  | some (root1, rc) =>
    some ({ root := root1, numEntries := t.numEntries + 1, numRanges := t.numRanges + rc }, rc)

/-- Function `NumericRangeTree_Add` folded over a list of (doc-id, value)
pairs, from the tree `t`. -/
def addAll : NumericRangeTree → List NumericRangeEntry → Option NumericRangeTree
  | t, [] => some t
  | t, e :: es =>
    match NumericRangeTree_Add t e.docId e.value with
    | none => none
    | some (t1, _) => addAll t1 es

/-! ## Range query -/

/-- An element of the result vector: a pointer to a bucket, that is the path
of the owning node together with the bucket it points to. -/
structure RangeRef where
  addr : List Bool
  rng : NumericRange
  deriving DecidableEq

/-- The bucket pointer `n->range` of the node at path `p`. -/
def rangeRef (p : List Bool) (range : Option NumericRange) : Option RangeRef :=
  range.map fun r => { addr := p, rng := r }

/-- The field `n->range` of a non-NULL node (NULL has none). -/
def NumericRangeNode.range : NumericRangeNode → Option NumericRange
  | .null => none
  | .node _ _ range _ _ => range

/-- The macro `__isLeaf`. -/
def __isLeaf : NumericRangeNode → Bool
  | .node _ _ _ .null .null => true
  | _ => false

/-- Function `__pushRange`: a NULL pointer and a pointer already in the vector
are not pushed. -/
def __pushRange (v : List RangeRef) (rng : Option RangeRef) : List RangeRef :=
  match rng with
  | none => v
  | some r => if v.any (fun vr => decide (vr.addr = r.addr)) then v else v ++ [r]

/-- Function `__recursiveAddRange` on the node at path `p`. -/
def __recursiveAddRange : List RangeRef → NumericRangeNode → List Bool → ℚ → ℚ → List RangeRef
  | v, .null, _, _, _ => v
  | v, .node _ _ range left right, p, min, max =>
    if range.isSome && NumericRange_Within range min max then
      __pushRange v (rangeRef p range)
    else
      __recursiveAddRange (__recursiveAddRange v left (p ++ [false]) min max)
        right (p ++ [true]) min max

/-- The inner loop `while (NumericRange_Contains(rn->range, min, max))` of the
lower descent, started at `rn`: `some r` when the function returns from inside
the loop after pushing `r`, `none` when the loop condition fails. -/
def findContaining : NumericRangeNode → List Bool → ℚ → ℚ → Option (Option RangeRef)
  | .null, _, _, _ => none
  | .node _ _ range left right, p, min, max =>
    if NumericRange_Contains range min max then
      if left ≠ .null ∧ NumericRange_Contains left.range min max then
        findContaining left (p ++ [false]) min max
      else if right ≠ .null ∧ NumericRange_Contains right.range min max then
        findContaining right (p ++ [true]) min max
      else some (rangeRef p range)
    else none

/-- Outcome of the lower descent (the `while (vmin)` loop): the function
returned from inside the loop, the loop ended with the pointer `vmin`
(`none` = NULL), or a NULL bucket was dereferenced. -/
inductive LowerResult where
  | returned (leaves : List RangeRef)
  | done (leaves : List RangeRef) (vmin : Option (List Bool))
  | crash
  deriving DecidableEq

/-- The loop `while (vmin)` of `NumericRangeNode_FindRange`, at the node
`vmin` of path `p`. -/
def findLower : List RangeRef → NumericRangeNode → List Bool → ℚ → ℚ → LowerResult
  | leaves, .null, _, _, _ => .done leaves none
  | leaves, .node value maxDepth range left right, p, min, max =>
    match findContaining (.node value maxDepth range left right) p min max with
    | some r => .returned (__pushRange leaves r)
    | none =>
      if NumericRange_Within range min max then
        .done (__pushRange leaves (rangeRef p range)) (some p)
      else if !(__isLeaf (.node value maxDepth range left right)) then
        if min < value then
          findLower (__recursiveAddRange leaves right (p ++ [true]) min max)
            left (p ++ [false]) min max
        else findLower leaves right (p ++ [true]) min max
      else
        match range with
        | none => .crash
        | some r =>
          if r.maxVal > min then .done (__pushRange leaves (rangeRef p range)) (some p)
          else .returned []

/-- The loop `while (vmax)` of `NumericRangeNode_FindRange`, at the node
`vmax` of path `p`; `vmin` is the pointer the lower descent ended with. -/
def findUpper : List RangeRef → Option (List Bool) → NumericRangeNode → List Bool → ℚ → ℚ →
    List RangeRef
  | leaves, _, .null, _, _, _ => leaves
  | leaves, vmin, .node value maxDepth range left right, p, min, max =>
    if NumericRange_Within range min max then __pushRange leaves (rangeRef p range)
    else if !(__isLeaf (.node value maxDepth range left right)) then
      if max < value then findUpper leaves vmin left (p ++ [false]) min max
      else
        findUpper (__recursiveAddRange leaves left (p ++ [false]) min max) vmin
          right (p ++ [true]) min max
    else
      match range with
      | none => leaves
      | some r =>
        if some p ≠ vmin ∧ r.minVal ≤ max then __pushRange leaves (rangeRef p range)
        else leaves

/-- Function `NumericRangeNode_FindRange`. -/
def NumericRangeNode_FindRange (n : NumericRangeNode) (min max : ℚ) : Option (List RangeRef) :=
  match findLower [] n [] min max with
  | .crash => none
  | .returned leaves => some leaves
  | .done leaves vmin => some (findUpper leaves vmin n [] min max)

/-- Function `NumericRangeTree_Find`. -/
def NumericRangeTree_Find (t : NumericRangeTree) (min max : ℚ) : Option (List RangeRef) :=
  NumericRangeNode_FindRange t.root min max

/-! ## Filter and bucket iterator -/

/-- The struct `NumericFilter` of numeric_filter.h (the field name is left
out). -/
structure NumericFilter where
  min : ℚ
  max : ℚ
  minNegInf : Bool
  maxInf : Bool
  inclusiveMin : Bool
  inclusiveMax : Bool
  deriving DecidableEq

/-- Modelled from the spec: `NumericFilter_Match` is declared in
numeric_filter.h and defined outside the sources; the spec describes a filter
as a lower and an upper bound, each possibly unbounded, with an inclusive or
exclusive flag per bound, and the match as the interval test. -/
def NumericFilter_Match (f : NumericFilter) (score : ℚ) : Bool :=
  (f.minNegInf || (if f.inclusiveMin then decide (f.min ≤ score) else decide (f.min < score))) &&
  (f.maxInf || (if f.inclusiveMax then decide (score ≤ f.max) else decide (score < f.max)))

/-- The iterator context `NumericRangeIterator`; the result record is
represented by the doc-id it carries, returned with `INDEXREAD_OK`. -/
structure NumericRangeIterator where
  rng : NumericRange
  nf : Option NumericFilter
  lastDocId : Nat
  offset : Nat
  atEOF : Bool
  deriving DecidableEq

/-- Return value of `NR_Read` and `NR_SkipTo`, with the doc-id stored in
the result record on `INDEXREAD_OK`. -/
inductive ReadResult where
  | INDEXREAD_EOF
  | INDEXREAD_OK (docId : Nat)
  deriving DecidableEq

/-- Function `NewNumericRangeIterator`. -/
def NewNumericRangeIterator (nr : NumericRange) (f : NumericFilter) : NumericRangeIterator :=
  { rng := nr,
    nf := if !(NumericFilter_Match f nr.minVal) || !(NumericFilter_Match f nr.maxVal)
          then some f else none,
    lastDocId := 0, offset := 0, atEOF := false }

/-- The test `it->nf ? NumericFilter_Match(it->nf, lastValue) : 1`. -/
def passes (nf : Option NumericFilter) (value : ℚ) : Bool :=
  match nf with
  | some f => NumericFilter_Match f value
  | none => true

/-- The loop `while (!match && !it->atEOF)` of `NR_Read`, entered with the
cursor at `offset`; the first argument is the part of the entry array from
`offset` on. The result is `lastDocId`, `offset`, `atEOF` and `match` at the
exit of the loop, or `none` when `entries[offset]` is outside the array. -/
def readLoop (nf : Option NumericFilter) (size : Nat) :
    List NumericRangeEntry → Nat → Option (Nat × Nat × Bool × Bool)
  | [], _ => none
  | e :: rest, offset =>
    let atEOF := decide (offset + 1 = size)
    let m := passes nf e.value
    if !m && !atEOF then readLoop nf size rest (offset + 1)
    else some (e.docId, offset + 1, atEOF, m)

/-- Function `NR_Read`: the updated iterator and the return value. -/
def NR_Read (it : NumericRangeIterator) : Option (NumericRangeIterator × ReadResult) :=
  if it.atEOF then some (it, .INDEXREAD_EOF)
  else
    match readLoop it.nf it.rng.size (it.rng.entries.drop it.offset) it.offset with
    | none => none
    | some (lastDocId, offset, atEOF, m) =>
      let it1 := { it with lastDocId := lastDocId, offset := offset, atEOF := atEOF }
      if atEOF && !m then some (it1, .INDEXREAD_EOF)
      else some (it1, .INDEXREAD_OK lastDocId)

/-- Number of values of the C type `u_int` (32 bits). -/
def UINT_RANGE : Nat := 2 ^ 32

/-- The loop `while (bottom < top)` of `NR_SkipTo` over the `u_int` variables
`top`, `bottom` and `i`, bounded by `fuel` iterations: the value of `i` at the
exit, or `none` when `entries[i]` is outside the array or the fuel runs out. -/
def skipLoop (entries : List NumericRangeEntry) (docId : Nat) : Nat → Nat → Nat → Nat → Option Nat
  | 0, _, _, _ => none
  | fuel + 1, top, bottom, i =>
    if bottom < top then
      match entries[i]? with
      | none => none
      | some e =>
        if e.docId = docId then some i
        else
          let top1 := if docId ≤ e.docId then i else top
          let bottom1 := if docId ≤ e.docId then bottom else i
          let newi := (bottom1 + top1) % UINT_RANGE / 2
          if newi = i then some i
          else skipLoop entries docId fuel top1 bottom1 newi
    else some i

/-- Function `NR_SkipTo`: the updated iterator and the return value. -/
def NR_SkipTo (it : NumericRangeIterator) (docId : Nat) :
    Option (NumericRangeIterator × ReadResult) :=
  if it.atEOF then some (it, .INDEXREAD_EOF)
  else
    match it.rng.entries[it.rng.size - 1]? with
    | none => none
    | some last =>
      if docId > last.docId then some ({ it with atEOF := true }, .INDEXREAD_EOF)
      else
        let top := (it.rng.size - 1) % UINT_RANGE
        let bottom := it.offset % UINT_RANGE
        match skipLoop it.rng.entries docId (2 * it.rng.size + 2) top bottom bottom with
        | none => none
        | some i => NR_Read { it with offset := i }

/-- Function `NR_HasNext`. -/
def NR_HasNext (it : NumericRangeIterator) : Bool := !it.atEOF

/-- Function `NR_LastDocId`. -/
def NR_LastDocId (it : NumericRangeIterator) : Nat := it.lastDocId

/-- The return values of `n` successive calls of `NR_Read`, with the iterator
they leave. -/
def readMany : Nat → NumericRangeIterator → Option (List ReadResult × NumericRangeIterator)
  | 0, it => some ([], it)
  | n + 1, it =>
    match NR_Read it with
    | none => none
    | some (it1, r) =>
      match readMany n it1 with
      | none => none
      | some (rs, it2) => some (r :: rs, it2)

/-- The doc-ids of the `INDEXREAD_OK` results of a list of return values. -/
def okDocIds : List ReadResult → List Nat
  | [] => []
  | .INDEXREAD_EOF :: rs => okDocIds rs
  | .INDEXREAD_OK d :: rs => d :: okDocIds rs

/-! ## Save and load -/

/-- An item of the persisted stream, written by `RedisModule_SaveUnsigned` or
`RedisModule_SaveDouble`. -/
inductive RdbItem where
  | unsigned (n : Nat)
  | dbl (v : ℚ)
  deriving DecidableEq

/-- The struct `__niRdbSaveCtx`. -/
structure SaveCtx where
  rdb : List RdbItem
  num : Nat
  deriving DecidableEq

/-- Function `NumericRangeNode_Traverse` (pre-order); `none` when the callback
would be handed NULL. -/
def NumericRangeNode_Traverse {α : Type} (callback : NumericRangeNode → α → α) :
    NumericRangeNode → α → Option α
  | .null, _ => none
  | .node value maxDepth range left right, ctx =>
    let c0 := callback (.node value maxDepth range left right) ctx
    let c1 := if left = .null then some c0 else NumericRangeNode_Traverse callback left c0
    match c1 with
    | none => none
    | some c =>
      if right = .null then some c else NumericRangeNode_Traverse callback right c

/-- The save loop of the callback over the entries of one bucket. -/
def saveEntry (c : SaveCtx) (e : NumericRangeEntry) : SaveCtx :=
  { rdb := c.rdb ++ [.unsigned e.docId, .dbl e.value], num := c.num + 1 }

/-- Function `__numericIndex_rdbSaveCallback`. -/
def __numericIndex_rdbSaveCallback (n : NumericRangeNode) (ctx : SaveCtx) : SaveCtx :=
  if __isLeaf n then
    match n.range with
    | none => ctx
    | some rng => rng.entries.foldl saveEntry ctx
  else ctx

/-- Function `NumericIndexType_RdbSave`: the final save context, that is the
stream written and the number of pairs dumped. -/
def NumericIndexType_RdbSave (t : NumericRangeTree) : Option SaveCtx :=
  NumericRangeNode_Traverse __numericIndex_rdbSaveCallback t.root
    { rdb := [.unsigned t.numEntries], num := 0 }

/-- The cast `(int)` of a doc-id: the 32-bit two's complement reading. -/
def toInt32 (n : Int) : Int :=
  if n % 2 ^ 32 < 2 ^ 31 then n % 2 ^ 32 else n % 2 ^ 32 - 2 ^ 32

/-- Function `__cmd_docId`: `(int)e1->docId - (int)e2->docId` in `int`. -/
def __cmd_docId (e1 e2 : NumericRangeEntry) : Int :=
  toInt32 (toInt32 (e1.docId : Int) - toInt32 (e2.docId : Int))

/-- The library call `qsort(entries, num, size, __cmd_docId)`: a sort that
puts `a` before `b` when the comparator is not positive. -/
def qsort (entries : List NumericRangeEntry) : List NumericRangeEntry :=
  entries.insertionSort fun a b => __cmd_docId a b ≤ 0

/-- The read loop of `NumericIndexType_RdbLoad`: `num` pairs from the stream. -/
def loadEntries : Nat → List RdbItem → Option (List NumericRangeEntry)
  | 0, _ => some []
  | n + 1, .unsigned d :: .dbl v :: rest =>
    match loadEntries n rest with
    | none => none
    | some es => some ({ docId := d, value := v } :: es)
  | _ + 1, _ => none

/-- Function `NumericIndexType_RdbLoad`: `none` when no tree is produced, that
is for an encoding version other than 0 (the code returns 0), for a stream
that cannot be read as written, or when an insertion fails. -/
def NumericIndexType_RdbLoad (rdb : List RdbItem) (encver : Int) : Option NumericRangeTree :=
  if encver ≠ 0 then none
  else
    match rdb with
    | .unsigned num :: rest =>
      match loadEntries num rest with
      | none => none
      | some entries => addAll NewNumericRangeTree (qsort entries)
    | _ => none

/-! ## Predicates used in the statements -/

/-- The results a valid iterator still has to deliver before the end of the
stream: the doc-ids of the entries from the cursor on that pass the filter
test of the iterator. -/
def pending (it : NumericRangeIterator) : List ReadResult :=
  if it.atEOF then []
  else ((it.rng.entries.drop it.offset).filter fun e => passes it.nf e.value).map
    fun e => .INDEXREAD_OK e.docId

/-- An iterator is exhausted or its cursor is inside the entry array. -/
def ValidIter (it : NumericRangeIterator) : Prop :=
  it.atEOF = true ∨ it.offset < it.rng.size

/-- Number of distinct values among a list of entries. -/
def distinctValues (es : List NumericRangeEntry) : Nat :=
  (es.map fun e => e.value).toFinset.card

/-- The fields `minVal` and `maxVal` enclose the value of every entry held. -/
def Bounded (r : NumericRange) : Prop :=
  ∀ e ∈ r.entries, r.minVal ≤ e.value ∧ e.value ≤ r.maxVal

/-- Every bucket owned by a node of the tree, in pre-order. -/
def buckets : NumericRangeNode → List NumericRange
  | .null => []
  | .node _ _ range left right => range.toList ++ (buckets left ++ buckets right)

/-- The buckets owned by the leaves of the tree, in pre-order. -/
def leafBuckets : NumericRangeNode → List NumericRange
  | .null => []
  | .node _ _ range .null .null => range.toList
  | .node _ _ _ left right => leafBuckets left ++ leafBuckets right

/-- The entries held by the leaves of the tree, in pre-order. -/
def leafEntries (n : NumericRangeNode) : List NumericRangeEntry :=
  (leafBuckets n).flatMap fun r => r.entries

/-- Number of nodes that are not leaves, that is number of splits so far. -/
def internalCount : NumericRangeNode → Nat
  | .null => 0
  | .node _ _ _ .null .null => 0
  | .node _ _ _ left right => 1 + internalCount left + internalCount right

/-- Shape and bucket invariant of the trees the insertion produces: no NULL
node is reached, a node without children owns a bucket whose `card` is the
number of distinct values it holds, any other node has two well-formed
children, and every bucket encloses its entries between `minVal` and
`maxVal`. -/
def WellFormed : NumericRangeNode → Prop
  | .null => False
  | .node _ _ range left right =>
    (∀ b, range = some b → Bounded b) ∧
    ((left = .null ∧ right = .null ∧
        ∃ b, range = some b ∧ b.card = distinctValues b.entries) ∨
      (WellFormed left ∧ WellFormed right))

/-- The interval test of a query: `lo ≤ v < hi` for an exclusive upper bound,
`lo ≤ v ≤ hi` for an inclusive one. -/
def inQuery (lo hi : ℚ) (inclusiveMax : Bool) (v : ℚ) : Prop :=
  lo ≤ v ∧ (if inclusiveMax then v ≤ hi else v < hi)

/-- Function `NumericRangeNode_Add` folded over a list of (doc-id, value)
pairs from the node `n`: the final node and the list of return codes. -/
def addSeq : NumericRangeNode → List NumericRangeEntry → Option (NumericRangeNode × List Nat)
  | n, [] => some (n, [])
  | n, e :: es =>
    match NumericRangeNode_Add n e.docId e.value with
    | none => none
    | some (n1, rc) =>
      match addSeq n1 es with
      | none => none
      | some (n2, rcs) => some (n2, rc :: rcs)

/-- The doc-ids obtained by calling `NR_Read` on a fresh iterator until it
has certainly reached the end (`size + 1` calls). -/
def readAll (it : NumericRangeIterator) : Option (List Nat) :=
  (readMany (it.rng.size + 1) it).map fun p => okDocIds p.1

/-- A call on an iterator: `NR_Read` or `NR_SkipTo` with a target. -/
inductive IterCall where
  | read
  | skipTo (docId : Nat)
  deriving DecidableEq

/-- One call on an iterator. -/
def runCall (it : NumericRangeIterator) : IterCall → Option (NumericRangeIterator × ReadResult)
  | .read => NR_Read it
  | .skipTo d => NR_SkipTo it d

/-- A sequence of calls on an iterator: the return values and the final
iterator. -/
def runCalls : List IterCall → NumericRangeIterator →
    Option (List ReadResult × NumericRangeIterator)
  | [], it => some ([], it)
  | c :: cs, it =>
    match runCall it c with
    | none => none
    | some (it1, r) =>
      match runCalls cs it1 with
      | none => none
      | some (rs, it2) => some (r :: rs, it2)

/-- Insertions of the failing query of the range search: values 5, 9, 1, 2,
3, 4 at doc-ids 1 to 6. -/
def insertedC1 : List NumericRangeEntry :=
  [⟨1, 5⟩, ⟨2, 9⟩, ⟨3, 1⟩, ⟨4, 2⟩, ⟨5, 3⟩, ⟨6, 4⟩]

/-- The scenario of the spec: values 5, 1, 9, 3, 7, 2, 8, 4, 6, 0 at
doc-ids 1 to 10. -/
def scenarioEntries : List NumericRangeEntry :=
  [⟨1, 5⟩, ⟨2, 1⟩, ⟨3, 9⟩, ⟨4, 3⟩, ⟨5, 7⟩, ⟨6, 2⟩, ⟨7, 8⟩, ⟨8, 4⟩, ⟨9, 6⟩, ⟨10, 0⟩]

/-- The filter `3 ≤ v < 7` of the scenario. -/
def scenarioFilter : NumericFilter :=
  { min := 3, max := 7, minNegInf := false, maxInf := false,
    inclusiveMin := true, inclusiveMax := false }

/-- A bucket holding doc-ids 1 and 5, and an iterator without filter at its
start. -/
def gapIterator : NumericRangeIterator :=
  { rng := { minVal := 0, maxVal := 0, cap := 2, card := 1, splitCard := 2,
             entries := [⟨1, 0⟩, ⟨5, 0⟩] },
    nf := none, lastDocId := 0, offset := 0, atEOF := false }

/-- The tree built by the insertions `insertedC1` (a new tree should an
insertion fail). -/
def builtC1 : NumericRangeTree :=
  (addAll NewNumericRangeTree insertedC1).getD NewNumericRangeTree

/-- The stream items written for a list of entries: doc-id then value, entry
after entry. -/
def encodeEntries : List NumericRangeEntry → List RdbItem
  | [] => []
  | e :: es => .unsigned e.docId :: .dbl e.value :: encodeEntries es

/-- A bucket of 2^31 + 2 entries with the doc-ids 1, 2, 3, ... in storage
order, all with the value 0. -/
def wrapEntries : List NumericRangeEntry :=
  (List.range (2 ^ 31 + 2)).map fun i => { docId := i + 1, value := 0 }

/-- An iterator without filter over `wrapEntries` that has read the first
2^31 entries. -/
def wrapIterator : NumericRangeIterator :=
  { rng := { minVal := 0, maxVal := 0, cap := 2 ^ 31 + 2, card := 1, splitCard := 2,
             entries := wrapEntries },
    nf := none, lastDocId := 2 ^ 31, offset := 2 ^ 31, atEOF := false }

/-- Every non-NULL node of the tree, in pre-order. -/
def subnodes : NumericRangeNode → List NumericRangeNode
  | .null => []
  | .node value maxDepth range left right =>
    .node value maxDepth range left right :: (subnodes left ++ subnodes right)

/-- The node reached from `n` by the path `p` (`false` = left, `true` =
right); NULL when the path leaves the tree. -/
def nodeAt : NumericRangeNode → List Bool → NumericRangeNode
  | .null, _ => .null
  | n, [] => n
  | .node _ _ _ left _, false :: p => nodeAt left p
  | .node _ _ _ _ right, true :: p => nodeAt right p

/-- The claimed reading of `minVal` and `maxVal`: each is the value of an
entry held, and every value held lies between them. -/
def TrueBounds (r : NumericRange) : Prop :=
  (∃ e ∈ r.entries, e.value = r.minVal) ∧ (∃ e ∈ r.entries, e.value = r.maxVal) ∧ Bounded r

/-- Shape of one node: no child or both children, a node without children
owns a bucket, and a node with children owns a bucket exactly while its
counter is at most `NR_MAX_DEPTH`. -/
def ShapeOK : NumericRangeNode → Prop
  | .null => False
  | .node _ maxDepth range left right =>
    (left = .null ↔ right = .null) ∧ (left = .null → range.isSome = true) ∧
    (left ≠ .null → (range.isSome = true ↔ maxDepth ≤ NR_MAX_DEPTH))

/-- An internal node whose retained bucket has been released. -/
def Released : NumericRangeNode → Prop
  | .null => False
  | .node _ _ range left right => range = none ∧ (left ≠ .null ∨ right ≠ .null)

/-- Search-tree ordering at one node: every entry of every bucket of the left
subtree is below the split value, every entry of every bucket of the right
subtree is at or above it. -/
def OrderedAt : NumericRangeNode → Prop
  | .null => True
  | .node value _ _ left right =>
    (∀ b ∈ buckets left, ∀ e ∈ b.entries, e.value < value) ∧
    (∀ b ∈ buckets right, ∀ e ∈ b.entries, value ≤ e.value)

/-- The bucket a node owns, if any, holds the same entries (as a multiset) as
the leaves below the node. -/
def MirrorAt (n : NumericRangeNode) : Prop :=
  ∀ b, n.range = some b → b.entries.Perm (leafEntries n)

/-- A property holds at every non-NULL node of a tree. -/
def AllNodes (P : NumericRangeNode → Prop) : NumericRangeNode → Prop
  | .null => True
  | .node value maxDepth range left right =>
    P (.node value maxDepth range left right) ∧ AllNodes P left ∧ AllNodes P right

/-- The doc-ids of the entries of a bucket are non-decreasing in storage
order. -/
def DocIdSorted (r : NumericRange) : Prop :=
  r.entries.Pairwise fun a b => a.docId ≤ b.docId

/-- The value 5/2. -/
def fiveHalves : ℚ := ⟨5, 2, by decide, by decide⟩

/-- The value 3/2. -/
def threeHalves : ℚ := ⟨3, 2, by decide, by decide⟩

/-- Insertions with non-integral values: 5/2 at doc-id 1, 3/2 at doc-id 2. -/
def insertedHalves : List NumericRangeEntry := [⟨1, fiveHalves⟩, ⟨2, threeHalves⟩]

/-- The leaf created on the left by the second split of `builtC1`: it holds
the values 1 and 2, with `minVal = 0` and `maxVal = 3`. -/
def leftLeafC1 : NumericRange :=
  { minVal := 0, maxVal := 3, cap := 3, card := 2, splitCard := 11,
    entries := [⟨3, 1⟩, ⟨4, 2⟩] }

/-- The filter `-1 ≤ v < 1`. -/
def aroundZeroFilter : NumericFilter :=
  { min := -1, max := 1, minNegInf := false, maxInf := false,
    inclusiveMin := true, inclusiveMax := false }

/-- Insertions of a repeated value: 5, 5, 5 then 7 at doc-ids 1 to 4. -/
def insertedRepeated : List NumericRangeEntry := [⟨1, 5⟩, ⟨2, 5⟩, ⟨3, 5⟩, ⟨4, 7⟩]

/-! ## Lemmas and theorems -/

theorem readLoop_spec (nf : Option NumericFilter) (size : Nat) :
    ∀ (l : List NumericRangeEntry) (o : Nat), l ≠ [] → o + l.length = size →
      ∃ last o1 m, readLoop nf size l o = some (last, o1, decide (o1 = size), m) ∧
        o < o1 ∧ o1 ≤ size ∧
        (m = true → ∃ e, l.filter (fun e => passes nf e.value)
            = e :: (l.drop (o1 - o)).filter (fun e => passes nf e.value) ∧ last = e.docId) ∧
        (m = false → l.filter (fun e => passes nf e.value) = [] ∧ o1 = size) := by
  intro l
  induction l with
  | nil => intro o h; exact absurd rfl h
  | cons e rest ih =>
    intro o _ hlen
    simp only [List.length_cons] at hlen
    by_cases hp : passes nf e.value = true
    · refine ⟨e.docId, o + 1, true, ?_, by omega, by omega, ?_, ?_⟩
      · simp [readLoop, hp]
      · intro _
        refine ⟨e, ?_, rfl⟩
        have : o + 1 - o = 1 := by omega
        simp [this, List.filter_cons, hp]
      · intro h; cases h
    · have hp2 : passes nf e.value = false := by simpa using hp
      by_cases hend : o + 1 = size
      · refine ⟨e.docId, o + 1, false, ?_, by omega, by omega, ?_, ?_⟩
        · simp [readLoop, hp2, hend]
        · intro h; cases h
        · intro _
          have hr : rest = [] := by
            apply List.eq_nil_of_length_eq_zero; omega
          subst hr
          simp [List.filter_cons, hp2, hend]
      · have hne : rest ≠ [] := by
          intro hr; subst hr; simp at hlen; omega
        obtain ⟨last, o1, m, hrl, hlt, hle, hm1, hm0⟩ := ih (o + 1) hne (by omega)
        refine ⟨last, o1, m, ?_, by omega, hle, ?_, ?_⟩
        · simp [readLoop, hp2, hend, hrl]
        · intro hm
          obtain ⟨e1, he1, hl1⟩ := hm1 hm
          refine ⟨e1, ?_, hl1⟩
          have : o1 - o = (o1 - (o + 1)) + 1 := by omega
          rw [this]
          simp [List.filter_cons, hp2, he1]
        · intro hm
          obtain ⟨h1, h2⟩ := hm0 hm
          exact ⟨by simp [List.filter_cons, hp2, h1], h2⟩

theorem NR_Read_step (it : NumericRangeIterator) (hv : ValidIter it) :
    ∃ it1 r, NR_Read it = some (it1, r) ∧ ValidIter it1 ∧ it1.rng = it.rng ∧ it1.nf = it.nf ∧
      it.offset ≤ it1.offset ∧ (it.atEOF = false → it.offset < it1.offset) ∧
      (it.atEOF = true → it1 = it) ∧
      r = (pending it).headD .INDEXREAD_EOF ∧ pending it1 = (pending it).tail := by
  by_cases heof : it.atEOF = true
  · refine ⟨it, .INDEXREAD_EOF, by simp [NR_Read, heof], hv, rfl, rfl, le_refl _, ?_, ?_, ?_, ?_⟩
    · intro h; rw [h] at heof; cases heof
    · intro _; rfl
    · simp [pending, heof]
    · simp [pending, heof]
  · have heof2 : it.atEOF = false := by simpa using heof
    have hlt : it.offset < it.rng.size := by
      rcases hv with h | h
      · exact absurd h heof
      · exact h
    have hne : it.rng.entries.drop it.offset ≠ [] := by
      intro h
      have := congrArg List.length h
      simp [NumericRange.size] at this hlt
      omega
    have hlen : it.offset + (it.rng.entries.drop it.offset).length = it.rng.size := by
      simp [NumericRange.size] at hlt ⊢
      omega
    obtain ⟨last, o1, m, hrl, hlt1, hle1, hm1, hm0⟩ :=
      readLoop_spec it.nf it.rng.size _ it.offset hne hlen
    have hdrop : (it.rng.entries.drop it.offset).drop (o1 - it.offset) = it.rng.entries.drop o1 := by
      rw [List.drop_drop]
      congr 1
      omega
    cases m with
    | true =>
      obtain ⟨e, he, hl⟩ := hm1 rfl
      refine ⟨{ it with lastDocId := last, offset := o1, atEOF := decide (o1 = it.rng.size) },
        .INDEXREAD_OK last, ?_, ?_, rfl, rfl, by simp; omega, by intro _; simp; omega, ?_, ?_, ?_⟩
      · simp [NR_Read, heof2, hrl]
      · by_cases h : o1 = it.rng.size
        · left; simp [h]
        · right; simp; omega
      · intro h; exact absurd h heof
      · simp [pending, heof2, he, hl]
      · rw [hdrop] at he
        by_cases h : o1 = it.rng.size
        · have hnil : it.rng.entries.drop o1 = [] := by
            apply List.drop_of_length_le
            simp [NumericRange.size] at h
            omega
          rw [hnil] at he
          simp [pending, heof2, he, h]
        · simp [pending, heof2, he, h]
    | false =>
      obtain ⟨hnil, ho⟩ := hm0 rfl
      refine ⟨{ it with lastDocId := last, offset := o1, atEOF := decide (o1 = it.rng.size) },
        .INDEXREAD_EOF, ?_, ?_, rfl, rfl, by simp; omega, by intro _; simp; omega, ?_, ?_, ?_⟩
      · simp [NR_Read, heof2, hrl, ho]
      · left; simp [ho]
      · intro h; exact absurd h heof
      · simp [pending, heof2, hnil]
      · simp [pending, ho, heof2, hnil]

theorem take_append_replicate {α : Type} (c : α) :
    ∀ (xs : List α) (n m : Nat), n ≤ m →
      (xs ++ List.replicate m c).take n = (xs ++ List.replicate n c).take n := by
  intro xs
  induction xs with
  | nil => intro n m h; simp [List.take_replicate, h]
  | cons x xs ih =>
    intro n m h
    cases n with
    | zero => simp
    | succ k =>
      simp only [List.cons_append, List.take_succ_cons]
      rw [ih k m (by omega), ih k (k + 1) (by omega)]

theorem readMany_spec : ∀ (n : Nat) (it : NumericRangeIterator), ValidIter it →
    ∃ it1, readMany n it
        = some ((pending it ++ List.replicate n ReadResult.INDEXREAD_EOF).take n, it1) ∧
      ValidIter it1 ∧ it1.rng = it.rng ∧ it1.nf = it.nf ∧ it.offset ≤ it1.offset := by
  intro n
  induction n with
  | zero => intro it hv; exact ⟨it, by simp [readMany], hv, rfl, rfl, le_refl _⟩
  | succ n ih =>
    intro it hv
    obtain ⟨it1, r, hr, hv1, hrng, hnf, hoff, _, _, hres, hpen⟩ := NR_Read_step it hv
    obtain ⟨it2, hm, hv2, hrng2, hnf2, hoff2⟩ := ih it1 hv1
    refine ⟨it2, ?_, hv2, hrng2.trans hrng, hnf2.trans hnf, le_trans hoff hoff2⟩
    simp only [readMany, hr, hm, hpen, hres]
    cases hp : pending it with
    | nil => simp [List.replicate_succ]
    | cons x xs =>
      simp only [List.tail_cons, List.headD_cons, List.cons_append, List.take_succ_cons]
      rw [take_append_replicate _ xs n (n + 1) (by omega)]
      

theorem truncate_mono {a b : ℚ} (h : a ≤ b) : truncate a ≤ truncate b := by
  unfold truncate
  by_cases ha : 0 ≤ a
  · have hb : 0 ≤ b := le_trans ha h
    simp only [ha, hb, if_true]
    exact Int.floor_le_floor h
  · by_cases hb : 0 ≤ b
    · simp only [ha, hb, if_true, if_false]
      have h1 : ⌈a⌉ ≤ 0 := by
        apply Int.ceil_le.mpr
        push_neg at ha
        exact_mod_cast le_of_lt ha
      have h2 : 0 ≤ ⌊b⌋ := Int.floor_nonneg.mpr hb
      exact le_trans h1 h2
    · simp only [ha, hb, if_false]
      exact Int.ceil_le_ceil h

theorem truncate_intCast (m : Int) : truncate (m : ℚ) = m := by
  unfold truncate
  split <;> simp

/-- The converted value is an integer inside the range of `int`. -/
theorem truncToInt_range (a : ℚ) :
    ∃ m : Int, truncToInt a = (m : ℚ) ∧ INT_MIN ≤ m ∧ m ≤ INT_MAX := by
  unfold truncToInt
  split
  · rename_i h
    exact ⟨truncate a, rfl, h.1, h.2⟩
  · exact ⟨INT_MIN, rfl, le_refl _, by decide⟩

theorem truncToInt_idem (a : ℚ) : truncToInt (truncToInt a) = truncToInt a := by
  obtain ⟨m, hm, h1, h2⟩ := truncToInt_range a
  rw [hm]
  unfold truncToInt
  rw [truncate_intCast, if_pos ⟨h1, h2⟩]

/-- A value at or below a converted value converts to at most that value:
inside the range of `int` by monotonicity of truncation, outside it because
the result is `INT_MIN`. -/
theorem truncToInt_le_of_le (a b : ℚ) (h : a ≤ truncToInt b) :
    truncToInt a ≤ truncToInt b := by
  obtain ⟨m, hm, h1, h2⟩ := truncToInt_range b
  rw [hm] at h ⊢
  unfold truncToInt
  split
  · have := truncate_mono h
    rw [truncate_intCast] at this
    exact_mod_cast this
  · exact_mod_cast h1

/-- The conversion is not monotone: a value above the range of `int` converts
to `INT_MIN`. -/
theorem truncToInt_not_mono :
    truncToInt 10000000000 = -2147483648 ∧ truncToInt 5 = 5 ∧
    ¬ (truncToInt 5 ≤ truncToInt 10000000000) := by decide

theorem SWAP_length (v : List ℚ) (a b : Nat) : (SWAP v a b).length = v.length := by
  simp [SWAP]

theorem qselectStep_length (len : Nat) (s : List ℚ × Nat) (i : Nat) :
    (qselectStep len s i).1.length = s.1.length := by
  unfold qselectStep
  split <;> simp [SWAP_length]

theorem qselectStep_st (len : Nat) (s : List ℚ × Nat) (i : Nat) :
    s.2 ≤ (qselectStep len s i).2 ∧ (qselectStep len s i).2 ≤ s.2 + 1 ∧
      ((qselectStep len s i).2 = s.2 → qselectStep len s i = s) := by
  unfold qselectStep
  split
  · simp
  · simp

/-- State of the partition loop after its first `n` iterations. -/
theorem qselectLoop_prefix (v : List ℚ) (n : Nat) :
    ((List.range n).foldl (qselectStep v.length) (v, 0)).1.length = v.length ∧
    ((List.range n).foldl (qselectStep v.length) (v, 0)).2 ≤ n ∧
    (((List.range n).foldl (qselectStep v.length) (v, 0)).2 = 0 →
      (List.range n).foldl (qselectStep v.length) (v, 0) = (v, 0)) ∧
    (0 < n → v.getD 0 0 ≤ v.getD (v.length - 1) 0 →
      1 ≤ ((List.range n).foldl (qselectStep v.length) (v, 0)).2) := by
  induction n with
  | zero => simp
  | succ n ih =>
    obtain ⟨h1, h2, h3, h4⟩ := ih
    rw [List.range_succ, List.foldl_append]
    simp only [List.foldl_cons, List.foldl_nil]
    obtain ⟨g1, g2, g3⟩ := qselectStep_st v.length ((List.range n).foldl (qselectStep v.length) (v, 0)) n
    refine ⟨by rw [qselectStep_length]; exact h1, by omega, ?_, ?_⟩
    · intro h0
      have hz : ((List.range n).foldl (qselectStep v.length) (v, 0)).2 = 0 := by omega
      rw [g3 (by omega)]
      exact h3 hz
    · intro _ hle
      by_cases hn : 0 < n
      · have := h4 hn hle
        omega
      · have hn0 : n = 0 := by omega
        subst hn0
        simp only [List.range_zero, List.foldl_nil]
        unfold qselectStep
        rw [if_neg (not_lt.mpr hle)]

theorem qselectLoop_spec (v : List ℚ) :
    (qselectLoop v).1.length = v.length ∧ (qselectLoop v).2 ≤ v.length - 1 ∧
    ((qselectLoop v).2 = 0 → (qselectLoop v).1 = v) ∧
    (2 ≤ v.length → v.getD 0 0 ≤ v.getD (v.length - 1) 0 → 1 ≤ (qselectLoop v).2) := by
  obtain ⟨h1, h2, h3, h4⟩ := qselectLoop_prefix v (v.length - 1)
  refine ⟨h1, h2, ?_, ?_⟩
  · intro h
    have := h3 h
    unfold qselectLoop
    rw [this]
  · intro hl hle
    exact h4 (by omega) hle

theorem SWAP_last_first (v : List ℚ) (h : 2 ≤ v.length) :
    (SWAP v (v.length - 1) 0).getD 0 0 = truncToInt (v.getD (v.length - 1) 0) ∧
    (SWAP v (v.length - 1) 0).getD (v.length - 1) 0 = v.getD 0 0 := by
  have h0 : 0 < v.length := by omega
  have h1 : v.length - 1 < v.length := by omega
  have hne : ¬ (0 = v.length - 1) := by omega
  constructor
  · simp [SWAP, List.getD_eq_getElem?_getD, List.getElem?_set, h0]
  · simp [SWAP, List.getD_eq_getElem?_getD, List.getElem?_set, h0, h1, hne]

/-- One call of `qselect`: it returns, or recurses on a strictly shorter
non-empty slice with a rank inside it, or (pivot strictly below every other
element, rank above 0) recurses on the same length after moving the pivot to
the front. -/
theorem qselectFuel_step (f : Nat) (v : List ℚ) (k : Nat) (hk : k < v.length) :
    (∃ r, qselectFuel (f + 1) v k = some r) ∨
    (∃ v1 k1, qselectFuel (f + 1) v k = qselectFuel f v1 k1 ∧
        v1.length < v.length ∧ k1 < v1.length) ∨
    (qselectFuel (f + 1) v k = qselectFuel f (SWAP v (v.length - 1) 0) k ∧
        2 ≤ v.length ∧ ¬ (v.getD 0 0 ≤ v.getD (v.length - 1) 0)) := by
  have hne : v.length ≠ 0 := by omega
  obtain ⟨h1, h2, h3, h4⟩ := qselectLoop_spec v
  have hw : (SWAP (qselectLoop v).1 (v.length - 1) (qselectLoop v).2).length = v.length := by
    rw [SWAP_length, h1]
  by_cases hkst : k = (qselectLoop v).2
  · left
    refine ⟨(SWAP (qselectLoop v).1 (v.length - 1) k).getD k 0, ?_⟩
    simp [qselectFuel, hne, ← hkst]
  · by_cases hgt : (qselectLoop v).2 > k
    · right; left
      refine ⟨(SWAP (qselectLoop v).1 (v.length - 1) (qselectLoop v).2).take (qselectLoop v).2, k,
        by simp [qselectFuel, hne, hkst, hgt], ?_, ?_⟩
      · rw [List.length_take, hw]; omega
      · rw [List.length_take, hw]; omega
    · by_cases hz : (qselectLoop v).2 = 0
      · right; right
        have hv := h3 hz
        have hl2 : 2 ≤ v.length := by omega
        refine ⟨?_, hl2, ?_⟩
        · have hk0 : k ≠ 0 := by omega
          simp [qselectFuel, hne, hz, hv, hk0]
        · intro hle
          have := h4 hl2 hle
          omega
      · right; left
        refine ⟨(SWAP (qselectLoop v).1 (v.length - 1) (qselectLoop v).2).drop (qselectLoop v).2,
          k - (qselectLoop v).2, by simp [qselectFuel, hne, hkst, hgt], ?_, ?_⟩
        · rw [List.length_drop, hw]; omega
        · rw [List.length_drop, hw]; omega

/-- Enough fuel: `3 * len` nested calls suffice for every rank inside the
array. -/
theorem qselectFuel_total : ∀ (n : Nat) (v : List ℚ) (k fuel : Nat),
    v.length ≤ n → k < v.length → 3 * v.length ≤ fuel → ∃ r, qselectFuel fuel v k = some r := by
  intro n
  induction n with
  | zero => intro v k fuel h1 h2 _; omega
  | succ n ih =>
    intro v k fuel hn hk hf
    obtain ⟨f, rfl⟩ : ∃ f, fuel = f + 1 := ⟨fuel - 1, by omega⟩
    rcases qselectFuel_step f v k hk with h | ⟨v1, k1, he, hl, hk1⟩ | ⟨he, hl2, hd1⟩
    · exact h
    · rw [he]; exact ih v1 k1 f (by omega) hk1 (by omega)
    · rw [he]
      have hwl : (SWAP v (v.length - 1) 0).length = v.length := SWAP_length _ _ _
      obtain ⟨f1, rfl⟩ : ∃ f1, f = f1 + 1 := ⟨f - 1, by omega⟩
      rcases qselectFuel_step f1 (SWAP v (v.length - 1) 0) k (by omega) with
        h | ⟨v1, k1, he1, hl1, hk1⟩ | ⟨he1, _, hd2⟩
      · exact h
      · rw [he1]; exact ih v1 k1 f1 (by omega) hk1 (by omega)
      · rw [he1]
        obtain ⟨f2, rfl⟩ : ∃ f2, f1 = f2 + 1 := ⟨f1 - 1, by omega⟩
        rw [hwl] at hd2 he1 ⊢
        have hwl2 : (SWAP (SWAP v (v.length - 1) 0) (v.length - 1) 0).length = v.length := by
          rw [SWAP_length, hwl]
        obtain ⟨a0, a1⟩ := SWAP_last_first v hl2
        obtain ⟨b0, b1⟩ := SWAP_last_first (SWAP v (v.length - 1) 0) (by omega)
        rw [hwl] at b0 b1
        rcases qselectFuel_step f2 (SWAP (SWAP v (v.length - 1) 0) (v.length - 1) 0) k
            (by omega) with h | ⟨v1, k1, he2, hl3, hk1⟩ | ⟨_, _, hd3⟩
        · exact h
        · rw [he2]; exact ih v1 k1 f2 (by omega) hk1 (by omega)
        · exfalso
          rw [hwl2] at hd3
          apply hd3
          rw [b0, b1, a0, a1]
          rw [a0, a1] at hd2
          exact truncToInt_le_of_le _ _ (le_of_lt (not_le.mp hd2))

theorem qselect_total (v : List ℚ) (k : Nat) (hk : k < v.length) :
    ∃ r, qselect v k = some r :=
  qselectFuel_total v.length v k (3 * v.length) (le_refl _) hk (le_refl _)

/-- A value outside the range of `int` comes back from `qselect` as `INT_MIN`:
on the array [10^10, 5] the element of rank 1 is returned as -2147483648. -/
theorem qselect_out_of_int_range :
    qselect [10000000000, 5] 1 = some (-2147483648) ∧
    qselect [10000000000, 5] 0 = some 5 := by
  decide

theorem NumericRange_Add_entries (n : NumericRange) (d : Nat) (v : ℚ) (c : Bool) :
    (NumericRange_Add n d v c).1.entries = n.entries ++ [{ docId := d, value := v }] := rfl

theorem NumericRange_Add_splitCard (n : NumericRange) (d : Nat) (v : ℚ) (c : Bool) :
    (NumericRange_Add n d v c).1.splitCard = n.splitCard := rfl

theorem NumericRange_Add_ret (n : NumericRange) (d : Nat) (v : ℚ) (c : Bool) :
    (NumericRange_Add n d v c).2 = (NumericRange_Add n d v c).1.card := rfl

theorem NumericRange_Add_minVal (n : NumericRange) (d : Nat) (v : ℚ) (c : Bool) :
    (NumericRange_Add n d v c).1.minVal = min v n.minVal := by
  simp only [NumericRange_Add]
  split
  · rw [min_eq_left (le_of_lt ‹v < n.minVal›)]
  · rw [min_eq_right (not_lt.mp ‹¬ v < n.minVal›)]

theorem NumericRange_Add_maxVal (n : NumericRange) (d : Nat) (v : ℚ) (c : Bool) :
    (NumericRange_Add n d v c).1.maxVal = max v n.maxVal := by
  simp only [NumericRange_Add]
  split
  · rw [max_eq_left (le_of_lt ‹v > n.maxVal›)]
  · rw [max_eq_right (not_lt.mp ‹¬ v > n.maxVal›)]

theorem NumericRange_Add_bounded (n : NumericRange) (d : Nat) (v : ℚ) (c : Bool)
    (h : Bounded n) : Bounded (NumericRange_Add n d v c).1 := by
  intro e he
  rw [NumericRange_Add_entries] at he
  rw [NumericRange_Add_minVal, NumericRange_Add_maxVal]
  rcases List.mem_append.mp he with h1 | h1
  · obtain ⟨a, b⟩ := h e h1
    exact ⟨le_trans (min_le_right _ _) a, le_trans b (le_max_right _ _)⟩
  · simp at h1
    subst h1
    exact ⟨min_le_left _ _, le_max_left _ _⟩

theorem distinctValues_append (es : List NumericRangeEntry) (e : NumericRangeEntry) :
    distinctValues (es ++ [e]) =
      if e.value ∈ es.map (fun x => x.value) then distinctValues es else distinctValues es + 1 := by
  unfold distinctValues
  rw [List.map_append, List.toFinset_append]
  simp only [List.map_cons, List.map_nil, List.toFinset_cons, List.toFinset_nil]
  split
  · rename_i h
    congr 1
    apply Finset.union_eq_left.mpr
    intro x hx
    simp at hx
    subst hx
    exact List.mem_toFinset.mpr h
  · rename_i h
    rw [Finset.union_comm]
    simp only [insert_emptyc_eq]
    rw [← Finset.insert_eq, Finset.card_insert_of_not_mem]
    intro hx
    exact h (List.mem_toFinset.mp hx)

theorem NumericRange_Add_card (n : NumericRange) (d : Nat) (v : ℚ)
    (h : n.card = distinctValues n.entries) :
    (NumericRange_Add n d v true).1.card = distinctValues (NumericRange_Add n d v true).1.entries := by
  rw [NumericRange_Add_entries, distinctValues_append]
  simp only [NumericRange_Add, if_true]
  by_cases hm : v ∈ n.entries.map (fun x => x.value)
  · have : (n.entries.any fun e => decide (e.value = v)) = true := by
      obtain ⟨x, hx, hxv⟩ := List.mem_map.mp hm
      exact List.any_eq_true.mpr ⟨x, hx, by simp [hxv]⟩
    simp [this, hm, h]
  · have : (n.entries.any fun e => decide (e.value = v)) = false := by
      apply Bool.eq_false_iff.mpr
      intro ht
      obtain ⟨x, hx, hxv⟩ := List.any_eq_true.mp ht
      exact hm (List.mem_map.mpr ⟨x, hx, by simpa using hxv⟩)
    simp [this, hm, h]

theorem splitFold_spec (split : ℚ) : ∀ (es : List NumericRangeEntry) (s : NumericRange × NumericRange),
    (es.foldl (splitStep split) s).1.entries
        = s.1.entries ++ es.filter (fun e => decide (e.value < split)) ∧
    (es.foldl (splitStep split) s).2.entries
        = s.2.entries ++ es.filter (fun e => !decide (e.value < split)) ∧
    (Bounded s.1 → Bounded (es.foldl (splitStep split) s).1) ∧
    (Bounded s.2 → Bounded (es.foldl (splitStep split) s).2) ∧
    (s.1.card = distinctValues s.1.entries →
      (es.foldl (splitStep split) s).1.card
        = distinctValues (es.foldl (splitStep split) s).1.entries) ∧
    (s.2.card = distinctValues s.2.entries →
      (es.foldl (splitStep split) s).2.card
        = distinctValues (es.foldl (splitStep split) s).2.entries) ∧
    (es.foldl (splitStep split) s).1.splitCard = s.1.splitCard ∧
    (es.foldl (splitStep split) s).2.splitCard = s.2.splitCard := by
  intro es
  induction es with
  | nil => intro s; simp
  | cons e es ih =>
    intro s
    simp only [List.foldl_cons]
    obtain ⟨h1, h2, h3, h4, h5, h6, h7, h8⟩ := ih (splitStep split s e)
    by_cases hlt : e.value < split
    · have hs : splitStep split s e = ((NumericRange_Add s.1 e.docId e.value true).1, s.2) := by
        simp [splitStep, hlt]
      rw [hs] at h1 h2 h3 h4 h5 h6 h7 h8 ⊢
      refine ⟨?_, ?_, ?_, h4, ?_, h6, ?_, h8⟩
      · rw [h1, NumericRange_Add_entries]; simp [List.filter_cons, hlt]
      · rw [h2]; simp [List.filter_cons, hlt]
      · intro hb; exact h3 (NumericRange_Add_bounded _ _ _ _ hb)
      · intro hc; exact h5 (NumericRange_Add_card _ _ _ hc)
      · rw [h7, NumericRange_Add_splitCard]
    · have hs : splitStep split s e = (s.1, (NumericRange_Add s.2 e.docId e.value true).1) := by
        simp [splitStep, hlt]
      rw [hs] at h1 h2 h3 h4 h5 h6 h7 h8 ⊢
      refine ⟨?_, ?_, h3, ?_, h5, ?_, h7, ?_⟩
      · rw [h1]; simp [List.filter_cons, hlt]
      · rw [h2, NumericRange_Add_entries]; simp [List.filter_cons, hlt]
      · intro hb; exact h4 (NumericRange_Add_bounded _ _ _ _ hb)
      · intro hc; exact h6 (NumericRange_Add_card _ _ _ hc)
      · rw [h8, NumericRange_Add_splitCard]

/-- What `NumericRange_Split` returns on a bucket that holds an entry. -/
theorem NumericRange_Split_spec (n : NumericRange) (h : n.entries ≠ []) :
    ∃ split l r, NumericRange_Split n = some (split, leafOf l, leafOf r) ∧
      qselect (n.entries.map fun e => e.value) (n.size / 2) = some split ∧
      l.entries = n.entries.filter (fun e => decide (e.value < split)) ∧
      r.entries = n.entries.filter (fun e => !decide (e.value < split)) ∧
      Bounded l ∧ Bounded r ∧
      l.card = distinctValues l.entries ∧ r.card = distinctValues r.entries ∧
      l.splitCard = 1 + n.splitCard * NR_EXPONENT ∧
      r.splitCard = 1 + n.splitCard * NR_EXPONENT := by
  have hpos : 0 < n.entries.length := List.length_pos.mpr h
  have hk : n.size / 2 < (n.entries.map fun e => e.value).length := by
    simp only [List.length_map, NumericRange.size]
    omega
  obtain ⟨split, hq⟩ := qselect_total _ _ hk
  obtain ⟨h1, h2, h3, h4, h5, h6, h7, h8⟩ := splitFold_spec split n.entries
    (NewLeafRange (n.size / 2 + 1) n.minVal split (1 + n.splitCard * NR_EXPONENT),
     NewLeafRange (n.size / 2 + 1) split n.maxVal (1 + n.splitCard * NR_EXPONENT))
  refine ⟨split,
    (n.entries.foldl (splitStep split)
      (NewLeafRange (n.size / 2 + 1) n.minVal split (1 + n.splitCard * NR_EXPONENT),
       NewLeafRange (n.size / 2 + 1) split n.maxVal (1 + n.splitCard * NR_EXPONENT))).1,
    (n.entries.foldl (splitStep split)
      (NewLeafRange (n.size / 2 + 1) n.minVal split (1 + n.splitCard * NR_EXPONENT),
       NewLeafRange (n.size / 2 + 1) split n.maxVal (1 + n.splitCard * NR_EXPONENT))).2,
    ?_, hq, ?_, ?_, ?_, ?_, ?_, ?_, ?_, ?_⟩
  · simp only [NumericRange_Split, hq]
  · rw [h1]; simp [NewLeafRange]
  · rw [h2]; simp [NewLeafRange]
  · apply h3; intro e he; simp [NewLeafRange] at he
  · apply h4; intro e he; simp [NewLeafRange] at he
  · apply h5; simp [NewLeafRange, distinctValues]
  · apply h6; simp [NewLeafRange, distinctValues]
  · rw [h7]; rfl
  · rw [h8]; rfl

theorem ageNode_spec (value : ℚ) (md : Nat) (rg : Option NumericRange)
    (l r : NumericRangeNode) (rc : Nat) :
    ∃ md1 rg1, ageNode value md rg l r rc = (.node value md1 rg1 l r, rc) ∧
      (rg1 = rg ∨ rg1 = none) := by
  unfold ageNode
  split
  · split
    · exact ⟨_, _, rfl, Or.inr rfl⟩
    · exact ⟨_, _, rfl, Or.inl rfl⟩
  · exact ⟨_, _, rfl, Or.inl rfl⟩

/-- A leaf below its threshold after the insertion stays a leaf and reports 0;
a leaf that reaches it is split, keeps the bucket it had after the insertion,
gets the counter 1 and reports 1. -/
theorem NumericRangeNode_Add_leaf (value : ℚ) (md : Nat) (r : NumericRange) (d : Nat) (v : ℚ) :
    ((NumericRange_Add r d v true).1.card < (NumericRange_Add r d v true).1.splitCard →
      NumericRangeNode_Add (.node value md (some r) .null .null) d v
        = some (.node value md (some (NumericRange_Add r d v true).1) .null .null, 0)) ∧
    ((NumericRange_Add r d v true).1.splitCard ≤ (NumericRange_Add r d v true).1.card →
      ∃ split lr rr,
        NumericRange_Split (NumericRange_Add r d v true).1 = some (split, leafOf lr, leafOf rr) ∧
        NumericRangeNode_Add (.node value md (some r) .null .null) d v
          = some (.node split 1 (some (NumericRange_Add r d v true).1) (leafOf lr) (leafOf rr), 1) ∧
        lr.entries = (NumericRange_Add r d v true).1.entries.filter
          (fun e => decide (e.value < split)) ∧
        rr.entries = (NumericRange_Add r d v true).1.entries.filter
          (fun e => !decide (e.value < split)) ∧
        Bounded lr ∧ Bounded rr ∧
        lr.card = distinctValues lr.entries ∧ rr.card = distinctValues rr.entries) := by
  constructor
  · intro h
    have h2 : ¬ (NumericRange_Add r d v true).1.splitCard ≤ (NumericRange_Add r d v true).1.card := by
      omega
    simp [NumericRangeNode_Add, NumericRange_Add_ret, h2]
  · intro h
    have hne : (NumericRange_Add r d v true).1.entries ≠ [] := by
      rw [NumericRange_Add_entries]; simp
    obtain ⟨split, lr, rr, hs, _, h1, h2, h3, h4, h5, h6, _, _⟩ :=
      NumericRange_Split_spec _ hne
    refine ⟨split, lr, rr, hs, ?_, h1, h2, h3, h4, h5, h6⟩
    simp [NumericRangeNode_Add, NumericRange_Add_ret, h, hs]

theorem WellFormed_ne_null {n : NumericRangeNode} (h : WellFormed n) : n ≠ .null := by
  intro hn; subst hn; exact h

theorem leafBuckets_internal (value : ℚ) (md : Nat) (rg : Option NumericRange)
    (l r : NumericRangeNode) (h : l ≠ .null ∨ r ≠ .null) :
    leafBuckets (.node value md rg l r) = leafBuckets l ++ leafBuckets r := by
  cases l <;> cases r <;> simp_all [leafBuckets]

theorem internalCount_internal (value : ℚ) (md : Nat) (rg : Option NumericRange)
    (l r : NumericRangeNode) (h : l ≠ .null ∨ r ≠ .null) :
    internalCount (.node value md rg l r) = 1 + internalCount l + internalCount r := by
  cases l <;> cases r <;> simp_all [internalCount]

theorem leafEntries_internal (value : ℚ) (md : Nat) (rg : Option NumericRange)
    (l r : NumericRangeNode) (h : l ≠ .null ∨ r ≠ .null) :
    leafEntries (.node value md rg l r) = leafEntries l ++ leafEntries r := by
  simp [leafEntries, leafBuckets_internal _ _ _ _ _ h]

theorem NumericRangeNode_Add_internal (value : ℚ) (md : Nat) (rg : Option NumericRange)
    (l r : NumericRangeNode) (d : Nat) (v : ℚ) (h : l ≠ .null ∨ r ≠ .null) :
    NumericRangeNode_Add (.node value md rg l r) d v =
      if v < value then
        match NumericRangeNode_Add l d v with
        | none => none
        | some (l1, rc) =>
          some (ageNode value md (rg.map fun b => (NumericRange_Add b d v false).1) l1 r rc)
      else
        match NumericRangeNode_Add r d v with
        | none => none
        | some (r1, rc) =>
          some (ageNode value md (rg.map fun b => (NumericRange_Add b d v false).1) l r1 rc) := by
  cases l <;> cases r <;> simp_all [NumericRangeNode_Add]

/-- Insertion into a well-formed node succeeds, keeps the node well-formed,
reports 0 or 1, adds that many internal nodes, and adds exactly the new entry
to the entries held by the leaves. -/
theorem NumericRangeNode_Add_spec : ∀ (n : NumericRangeNode) (d : Nat) (v : ℚ), WellFormed n →
    ∃ n1 rc, NumericRangeNode_Add n d v = some (n1, rc) ∧ WellFormed n1 ∧ rc ≤ 1 ∧
      internalCount n1 = internalCount n + rc ∧
      (leafEntries n1).Perm (leafEntries n ++ [{ docId := d, value := v }]) := by
  intro n
  induction n with
  | null => intro d v h; exact absurd h (by simp [WellFormed])
  | node value md rg l r ihl ihr =>
    intro d v hwf
    obtain ⟨hb, hshape⟩ := hwf
    rcases hshape with ⟨hl, hr, b, hrg, hcard⟩ | ⟨hwl, hwr⟩
    · subst hl hr hrg
      obtain ⟨hstay, hsplit⟩ := NumericRangeNode_Add_leaf value md b d v
      have hbb : Bounded (NumericRange_Add b d v true).1 :=
        NumericRange_Add_bounded _ _ _ _ (hb b rfl)
      have hcc := NumericRange_Add_card b d v hcard
      by_cases hthr : (NumericRange_Add b d v true).1.card < (NumericRange_Add b d v true).1.splitCard
      · refine ⟨_, 0, hstay hthr, ?_, by omega, by simp [internalCount], ?_⟩
        · exact ⟨fun b1 hb1 => by cases hb1; exact hbb, Or.inl ⟨rfl, rfl, _, rfl, hcc⟩⟩
        · simp [leafEntries, leafBuckets, NumericRange_Add_entries]
      · obtain ⟨split, lr, rr, _, hadd, hle, hre, hbl, hbr, hcl, hcr⟩ := hsplit (by omega)
        refine ⟨_, 1, hadd, ?_, by omega, ?_, ?_⟩
        · refine ⟨fun b1 hb1 => by cases hb1; exact hbb, Or.inr ⟨?_, ?_⟩⟩
          · exact ⟨fun b1 hb1 => by cases hb1; exact hbl, Or.inl ⟨rfl, rfl, _, rfl, hcl⟩⟩
          · exact ⟨fun b1 hb1 => by cases hb1; exact hbr, Or.inl ⟨rfl, rfl, _, rfl, hcr⟩⟩
        · simp [internalCount, leafOf]
        · simp only [leafEntries, leafBuckets, leafOf, Option.toList, List.flatMap_cons,
            List.flatMap_nil, List.append_nil, List.nil_append, List.cons_append,
            List.singleton_append]
          rw [hle, hre, NumericRange_Add_entries]
          exact List.filter_append_perm _ _
    · have hne : l ≠ .null ∨ r ≠ .null := Or.inl (WellFormed_ne_null hwl)
      rw [NumericRangeNode_Add_internal _ _ _ _ _ _ _ hne]
      have hrg1 : ∀ b1, (rg.map fun b => (NumericRange_Add b d v false).1) = some b1 →
          Bounded b1 := by
        intro b1 hb1
        cases rg with
        | none => simp at hb1
        | some b0 =>
          simp at hb1
          subst hb1
          exact NumericRange_Add_bounded _ _ _ _ (hb b0 rfl)
      by_cases hlt : v < value
      · obtain ⟨l1, rc, hadd, hw1, hrc, hic, hperm⟩ := ihl d v hwl
        obtain ⟨md1, rg1, hage, hrg⟩ := ageNode_spec value md
          (rg.map fun b => (NumericRange_Add b d v false).1) l1 r rc
        have hne1 : l1 ≠ .null ∨ r ≠ .null := Or.inl (WellFormed_ne_null hw1)
        refine ⟨.node value md1 rg1 l1 r, rc, by simp [hlt, hadd, hage], ?_, hrc, ?_, ?_⟩
        · refine ⟨?_, Or.inr ⟨hw1, hwr⟩⟩
          intro b1 hb1
          rcases hrg with h | h
          · rw [h] at hb1; exact hrg1 b1 hb1
          · rw [h] at hb1; cases hb1
        · rw [internalCount_internal _ _ _ _ _ hne1, internalCount_internal _ _ _ _ _ hne, hic]
          omega
        · rw [leafEntries_internal _ _ _ _ _ hne1, leafEntries_internal _ _ _ _ _ hne]
          have := List.Perm.append_right (leafEntries r) hperm
          refine this.trans ?_
          simp only [List.append_assoc]
          exact List.Perm.append_left _ List.perm_append_comm
      · obtain ⟨r1, rc, hadd, hw1, hrc, hic, hperm⟩ := ihr d v hwr
        obtain ⟨md1, rg1, hage, hrg⟩ := ageNode_spec value md
          (rg.map fun b => (NumericRange_Add b d v false).1) l r1 rc
        have hne1 : l ≠ .null ∨ r1 ≠ .null := Or.inl (WellFormed_ne_null hwl)
        refine ⟨.node value md1 rg1 l r1, rc, by simp [hlt, hadd, hage], ?_, hrc, ?_, ?_⟩
        · refine ⟨?_, Or.inr ⟨hwl, hw1⟩⟩
          intro b1 hb1
          rcases hrg with h | h
          · rw [h] at hb1; exact hrg1 b1 hb1
          · rw [h] at hb1; cases hb1
        · rw [internalCount_internal _ _ _ _ _ hne1, internalCount_internal _ _ _ _ _ hne, hic]
          omega
        · rw [leafEntries_internal _ _ _ _ _ hne1, leafEntries_internal _ _ _ _ _ hne]
          have := List.Perm.append_left (leafEntries l) hperm
          refine this.trans ?_
          simp only [List.append_assoc]
          exact List.Perm.refl _

theorem WellFormed_new : WellFormed NewNumericRangeTree.root := by
  refine ⟨?_, Or.inl ⟨rfl, rfl, NewLeafRange 2 0 0 2, rfl, ?_⟩⟩
  · intro b hb
    cases hb
    intro e he
    simp [NewLeafRange] at he
  · simp [NewLeafRange, distinctValues]

theorem NumericRangeTree_Add_spec (t : NumericRangeTree) (d : Nat) (v : ℚ)
    (h : WellFormed t.root) :
    ∃ t1 rc, NumericRangeTree_Add t d v = some (t1, rc) ∧ WellFormed t1.root ∧ rc ≤ 1 ∧
      NumericRangeNode_Add t.root d v = some (t1.root, rc) ∧
      t1.numEntries = t.numEntries + 1 ∧ t1.numRanges = t.numRanges + rc ∧
      internalCount t1.root = internalCount t.root + rc ∧
      (leafEntries t1.root).Perm (leafEntries t.root ++ [{ docId := d, value := v }]) := by
  obtain ⟨n1, rc, hadd, hw, hrc, hic, hperm⟩ := NumericRangeNode_Add_spec t.root d v h
  exact ⟨{ root := n1, numEntries := t.numEntries + 1, numRanges := t.numRanges + rc }, rc,
    by simp [NumericRangeTree_Add, hadd], hw, hrc, hadd, rfl, rfl, hic, hperm⟩

/-- Every sequence of insertions from a well-formed tree succeeds; the result
is well-formed, counts the insertions, and its leaves hold the old entries
and the inserted ones. -/
theorem addAll_spec : ∀ (es : List NumericRangeEntry) (t : NumericRangeTree),
    WellFormed t.root →
    ∃ t1, addAll t es = some t1 ∧ WellFormed t1.root ∧
      t1.numEntries = t.numEntries + es.length ∧
      (leafEntries t1.root).Perm (leafEntries t.root ++ es) := by
  intro es
  induction es with
  | nil => intro t h; exact ⟨t, rfl, h, by simp, by simp⟩
  | cons e es ih =>
    intro t h
    obtain ⟨t1, rc, hadd, hw, _, _, hn, _, _, hperm⟩ := NumericRangeTree_Add_spec t e.docId e.value h
    obtain ⟨t2, hall, hw2, hn2, hperm2⟩ := ih t1 hw
    refine ⟨t2, by simp [addAll, hadd, hall], hw2, by simp [hn2, hn]; omega, ?_⟩
    refine hperm2.trans ?_
    have := List.Perm.append_right es hperm
    simpa using this

theorem addAll_new (es : List NumericRangeEntry) :
    ∃ t, addAll NewNumericRangeTree es = some t ∧ WellFormed t.root ∧
      t.numEntries = es.length ∧ (leafEntries t.root).Perm es := by
  obtain ⟨t, h1, h2, h3, h4⟩ := addAll_spec es NewNumericRangeTree WellFormed_new
  refine ⟨t, h1, h2, by simpa [NewNumericRangeTree] using h3, ?_⟩
  simpa [NewNumericRangeTree, NewLeafNode, leafOf, leafEntries, leafBuckets, NewLeafRange] using h4

theorem WellFormed_buckets : ∀ (n : NumericRangeNode), WellFormed n →
    ∀ b ∈ buckets n, Bounded b := by
  intro n
  induction n with
  | null => intro h; exact absurd h (by simp [WellFormed])
  | node value md rg l r ihl ihr =>
    intro hwf b hb
    obtain ⟨hbd, hshape⟩ := hwf
    simp only [buckets, List.mem_append] at hb
    rcases hb with hb | hb | hb
    · cases rg with
      | none => simp at hb
      | some b0 =>
        have hbb : b = b0 := by simpa using hb
        exact hbd b (by rw [hbb])
    · rcases hshape with ⟨hl, _, _⟩ | ⟨hwl, _⟩
      · subst hl; simp [buckets] at hb
      · exact ihl hwl b hb
    · rcases hshape with ⟨_, hr, _⟩ | ⟨_, hwr⟩
      · subst hr; simp [buckets] at hb
      · exact ihr hwr b hb

set_option maxRecDepth 100000 in
/-- C1 (the code misses matching entries): after inserting the values 5, 9,
1, 2, 3, 4 at doc-ids 1..6 into a new tree, `NumericRangeTree_Find(t, -1, 9)`
returns exactly two buckets, holding the entries (3,1), (4,2) and (2,9); the
inserted entries (1,5), (5,3) and (6,4), whose values lie in `-1 ≤ v < 9`
(and in `-1 ≤ v ≤ 9`), are in none of the returned buckets. -/
theorem NumericRangeTree_Find_misses_entries :
    ((addAll NewNumericRangeTree insertedC1).bind fun t => NumericRangeTree_Find t (-1) 9).map
        (fun leaves => leaves.map fun r => r.rng.entries)
      = some [[⟨3, 1⟩, ⟨4, 2⟩], [⟨2, 9⟩]] ∧
    ((⟨1, 5⟩ : NumericRangeEntry) ∈ insertedC1 ∧ inQuery (-1) 9 false 5 ∧ inQuery (-1) 9 true 5 ∧
      (⟨1, 5⟩ : NumericRangeEntry) ∉ [(⟨3, 1⟩ : NumericRangeEntry), ⟨4, 2⟩, ⟨2, 9⟩]) ∧
    ((⟨5, 3⟩ : NumericRangeEntry) ∈ insertedC1 ∧ inQuery (-1) 9 false 3 ∧ inQuery (-1) 9 true 3 ∧
      (⟨5, 3⟩ : NumericRangeEntry) ∉ [(⟨3, 1⟩ : NumericRangeEntry), ⟨4, 2⟩, ⟨2, 9⟩]) ∧
    ((⟨6, 4⟩ : NumericRangeEntry) ∈ insertedC1 ∧ inQuery (-1) 9 false 4 ∧ inQuery (-1) 9 true 4 ∧
      (⟨6, 4⟩ : NumericRangeEntry) ∉ [(⟨3, 1⟩ : NumericRangeEntry), ⟨4, 2⟩, ⟨2, 9⟩]) := by
  refine ⟨by decide, ⟨by decide, ?_, ?_, by decide⟩, ⟨by decide, ?_, ?_, by decide⟩,
    ⟨by decide, ?_, ?_, by decide⟩⟩ <;>
  · unfold inQuery
    norm_num

/-! ## C3 -/

set_option maxRecDepth 100000 in
/-- C3: from a single leaf with split threshold 4 and min = max = 0, inserting
the values 5, 1, 9, 3, 7, 2, 8, 4, 6, 0 at doc-ids 1..10 returns 0 for the
first three insertions and 1 (first split) at the fourth; for the filter
`3 ≤ v < 7` the query `NumericRangeNode_FindRange(root, 3, 7)` returns one
bucket, the iterator created on it applies the filter, and reading it to the
end yields exactly the doc-ids 1, 4, 8, 9. -/
theorem scenario_split_and_query :
    (addSeq (NewLeafNode 2 0 0 4) scenarioEntries).map (fun p => p.2)
      = some [0, 0, 0, 1, 0, 0, 0, 0, 0, 0] ∧
    (((addSeq (NewLeafNode 2 0 0 4) scenarioEntries).bind
        fun p => NumericRangeNode_FindRange p.1 3 7).map
      fun leaves => leaves.map fun r =>
        ((NewNumericRangeIterator r.rng scenarioFilter).nf,
          readAll (NewNumericRangeIterator r.rng scenarioFilter)))
      = some [(some scenarioFilter, some [1, 4, 8, 9])] := by
  decide

/-! ## C4 -/

/-- C4: on a fresh iterator over a bucket that holds an entry, with or without
a filter, the return values of any number `n` of successive `NR_Read` calls
are the first `n` items of the sequence made of `INDEXREAD_OK d` for the
doc-id `d` of each passing entry, in storage order and once each (every entry
without a filter, the entries matching the filter otherwise), followed by
`INDEXREAD_EOF` forever. -/
theorem NR_Read_ordered_scan (b : NumericRange) (nf : Option NumericFilter)
    (h : b.entries ≠ []) (n : Nat) :
    ∃ it1, readMany n { rng := b, nf := nf, lastDocId := 0, offset := 0, atEOF := false }
      = some ((((b.entries.filter fun e => passes nf e.value).map
                fun e => ReadResult.INDEXREAD_OK e.docId)
              ++ List.replicate n ReadResult.INDEXREAD_EOF).take n, it1) := by
  have hv : ValidIter { rng := b, nf := nf, lastDocId := 0, offset := 0, atEOF := false } := by
    right
    simp only [NumericRange.size]
    exact List.length_pos.mpr h
  obtain ⟨it1, hm, _⟩ := readMany_spec n _ hv
  refine ⟨it1, ?_⟩
  rw [hm]
  simp [pending]

theorem NR_Read_ordered_scan_witness :
    ∃ it1, readMany 4 { rng := gapIterator.rng, nf := some scenarioFilter,
                        lastDocId := 0, offset := 0, atEOF := false }
      = some ((((gapIterator.rng.entries.filter fun e => passes (some scenarioFilter) e.value).map
                fun e => ReadResult.INDEXREAD_OK e.docId)
              ++ List.replicate 4 ReadResult.INDEXREAD_EOF).take 4, it1) :=
  NR_Read_ordered_scan gapIterator.rng (some scenarioFilter) (by decide) 4

/-! ## C5 -/

/-- C5 (the code lands one entry early): on a bucket holding the doc-ids 1 and
5, `NR_SkipTo(3)` from the start leaves the binary search at index 0, not at
the first entry with doc-id at least 3 (index 1), and returns doc-id 1,
which is below the target. -/
theorem NR_SkipTo_returns_below_target :
    NR_SkipTo gapIterator 3
      = some ({ gapIterator with lastDocId := 1, offset := 1 }, .INDEXREAD_OK 1) ∧
    skipLoop gapIterator.rng.entries 3 (2 * gapIterator.rng.size + 2) 1 0 0 = some 0 ∧
    gapIterator.rng.entries.Pairwise (fun a b => a.docId ≤ b.docId) ∧
    gapIterator.rng.entries.getLast? = some ⟨5, 0⟩ := by
  decide

theorem runCalls_exhausted (it : NumericRangeIterator) (h : it.atEOF = true) :
    ∀ (cs : List IterCall),
      runCalls cs it = some (List.replicate cs.length ReadResult.INDEXREAD_EOF, it) := by
  intro cs
  induction cs with
  | nil => rfl
  | cons c cs ih =>
    have hc : runCall it c = some (it, ReadResult.INDEXREAD_EOF) := by
      cases c <;> simp [runCall, NR_Read, NR_SkipTo, h]
    simp [runCalls, hc, ih, List.replicate_succ]

/-! ## C7 -/

/-- C7: on a non-exhausted iterator over a bucket whose last entry is `last`,
`NR_SkipTo` with a target above `last.docId` returns `INDEXREAD_EOF` and only
sets the end-of-stream flag (cursor offset and last doc-id are unchanged);
afterwards `NR_HasNext` is false and every sequence of later `NR_Read` and
`NR_SkipTo` calls returns `INDEXREAD_EOF` only, leaving the iterator as it
is. -/
theorem NR_SkipTo_past_last (it : NumericRangeIterator) (d : Nat) (last : NumericRangeEntry)
    (hne : it.atEOF = false) (hlast : it.rng.entries.getLast? = some last)
    (hd : last.docId < d) :
    NR_SkipTo it d = some ({ it with atEOF := true }, .INDEXREAD_EOF) ∧
    NR_HasNext { it with atEOF := true } = false ∧
    ∀ cs : List IterCall,
      runCalls cs { it with atEOF := true }
        = some (List.replicate cs.length ReadResult.INDEXREAD_EOF, { it with atEOF := true }) := by
  refine ⟨?_, by simp [NR_HasNext], runCalls_exhausted _ rfl⟩
  have hl : it.rng.entries[it.rng.size - 1]? = some last := by
    rw [← hlast, List.getLast?_eq_getElem?]
    rfl
  simp [NR_SkipTo, hne, hl, hd]

theorem NR_SkipTo_past_last_witness :
    NR_SkipTo gapIterator 6 = some ({ gapIterator with atEOF := true }, .INDEXREAD_EOF) ∧
    NR_HasNext { gapIterator with atEOF := true } = false ∧
    ∀ cs : List IterCall,
      runCalls cs { gapIterator with atEOF := true }
        = some (List.replicate cs.length ReadResult.INDEXREAD_EOF,
            { gapIterator with atEOF := true }) :=
  NR_SkipTo_past_last gapIterator 6 ⟨5, 0⟩ rfl (by decide) (by decide)

theorem okDocIds_mem : ∀ (rs : List ReadResult) (d : Nat),
    d ∈ okDocIds rs ↔ ReadResult.INDEXREAD_OK d ∈ rs := by
  intro rs
  induction rs with
  | nil => intro d; simp [okDocIds]
  | cons r rs ih =>
    intro d
    cases r with
    | INDEXREAD_EOF => simp [okDocIds, ih]
    | INDEXREAD_OK x => simp [okDocIds, ih]

theorem NumericFilter_Match_convex (f : NumericFilter) (a c v : ℚ)
    (ha : NumericFilter_Match f a = true) (hc : NumericFilter_Match f c = true)
    (h1 : a ≤ v) (h2 : v ≤ c) : NumericFilter_Match f v = true := by
  simp only [NumericFilter_Match, Bool.and_eq_true, Bool.or_eq_true] at ha hc ⊢
  obtain ⟨ha1, _⟩ := ha
  obtain ⟨_, hc2⟩ := hc
  constructor
  · rcases ha1 with h | h
    · exact Or.inl h
    · right
      cases hi : f.inclusiveMin
      · simp only [hi, Bool.false_eq_true, if_false, decide_eq_true_eq] at h ⊢
        exact lt_of_lt_of_le h h1
      · simp only [hi, if_true, decide_eq_true_eq] at h ⊢
        exact le_trans h h1
  · rcases hc2 with h | h
    · exact Or.inl h
    · right
      cases hi : f.inclusiveMax
      · simp only [hi, Bool.false_eq_true, if_false, decide_eq_true_eq] at h ⊢
        exact lt_of_le_of_lt h2 h
      · simp only [hi, if_true, decide_eq_true_eq] at h ⊢
        exact le_trans h2 h

/-- When the iterator is created without a filter, every entry of a bucket
that encloses its entries matches the filter. -/
theorem NewNumericRangeIterator_no_filter (b : NumericRange) (f : NumericFilter)
    (hb : Bounded b) (h : (NewNumericRangeIterator b f).nf = none) :
    ∀ e ∈ b.entries, NumericFilter_Match f e.value = true := by
  intro e he
  obtain ⟨h1, h2⟩ := hb e he
  simp only [NewNumericRangeIterator] at h
  split at h
  · cases h
  · rename_i hm
    simp only [Bool.or_eq_true, Bool.not_eq_true', not_or, Bool.not_eq_false] at hm
    exact NumericFilter_Match_convex f _ _ _ hm.1 hm.2 h1 h2

/-! ## C2 -/

/-- C2: for a tree built from a new tree by insertions, a bucket `b` of the
tree (of a leaf or retained by an internal node) that holds an entry and a
filter `f`, any number of successive `NR_Read` calls on
`NewNumericRangeIterator(b, f)` succeed, and every doc-id they return belongs
to an entry of `b` whose value matches `f`; and when the iterator was created
without the per-entry filter, every entry of `b` matches `f`. -/
theorem NR_Read_no_false_positive (es : List NumericRangeEntry) (t : NumericRangeTree)
    (f : NumericFilter) (b : NumericRange) (n : Nat)
    (hbuild : addAll NewNumericRangeTree es = some t) (hb : b ∈ buckets t.root)
    (hne : b.entries ≠ []) :
    (∃ rs it1, readMany n (NewNumericRangeIterator b f) = some (rs, it1) ∧
      ∀ d ∈ okDocIds rs, ∃ e ∈ b.entries, e.docId = d ∧ NumericFilter_Match f e.value = true) ∧
    ((NewNumericRangeIterator b f).nf = none →
      ∀ e ∈ b.entries, NumericFilter_Match f e.value = true) := by
  obtain ⟨t1, h1, hwf, _, _⟩ := addAll_new es
  rw [hbuild] at h1
  cases h1
  have hbd : Bounded b := WellFormed_buckets t.root hwf b hb
  have hnof := NewNumericRangeIterator_no_filter b f hbd
  refine ⟨?_, hnof⟩
  have hv : ValidIter (NewNumericRangeIterator b f) := by
    right
    simp only [NewNumericRangeIterator, NumericRange.size]
    exact List.length_pos.mpr hne
  obtain ⟨it1, hm, _⟩ := readMany_spec n _ hv
  refine ⟨_, it1, hm, ?_⟩
  intro d hd
  rw [okDocIds_mem] at hd
  have hd1 := List.mem_of_mem_take hd
  rcases List.mem_append.mp hd1 with hp | hp
  · simp only [pending] at hp
    have hoff : (NewNumericRangeIterator b f).offset = 0 := rfl
    have heof : (NewNumericRangeIterator b f).atEOF = false := rfl
    have hrng : (NewNumericRangeIterator b f).rng = b := rfl
    rw [hoff, heof, hrng] at hp
    simp only [Bool.false_eq_true, if_false, List.drop_zero, List.mem_map, List.mem_filter] at hp
    obtain ⟨e, ⟨he, hpass⟩, hed⟩ := hp
    refine ⟨e, he, by cases hed; rfl, ?_⟩
    cases hnf : (NewNumericRangeIterator b f).nf with
    | none => exact hnof hnf e he
    | some g =>
      have hg : g = f := by
        simp only [NewNumericRangeIterator] at hnf
        split at hnf
        · cases hnf; rfl
        · cases hnf
      rw [hnf, hg] at hpass
      exact hpass
  · have := (List.mem_replicate.mp hp).2
    cases this

theorem NR_Read_no_false_positive_witness :
    (∃ rs it1, readMany 7 (NewNumericRangeIterator ⟨0, 9, 6, 6, 2, insertedC1⟩ scenarioFilter)
        = some (rs, it1) ∧
      ∀ d ∈ okDocIds rs, ∃ e ∈ (⟨0, 9, 6, 6, 2, insertedC1⟩ : NumericRange).entries,
        e.docId = d ∧ NumericFilter_Match scenarioFilter e.value = true) ∧
    ((NewNumericRangeIterator ⟨0, 9, 6, 6, 2, insertedC1⟩ scenarioFilter).nf = none →
      ∀ e ∈ (⟨0, 9, 6, 6, 2, insertedC1⟩ : NumericRange).entries,
        NumericFilter_Match scenarioFilter e.value = true) :=
  NR_Read_no_false_positive insertedC1
    ((addAll NewNumericRangeTree insertedC1).getD NewNumericRangeTree) scenarioFilter
    ⟨0, 9, 6, 6, 2, insertedC1⟩ 7 (by decide) (by decide) (by decide)

/-! ## C8 -/

theorem encodeEntries_append : ∀ (xs ys : List NumericRangeEntry),
    encodeEntries (xs ++ ys) = encodeEntries xs ++ encodeEntries ys := by
  intro xs
  induction xs with
  | nil => intro ys; rfl
  | cons x xs ih => intro ys; simp [encodeEntries, ih]

theorem saveEntry_foldl : ∀ (es : List NumericRangeEntry) (c : SaveCtx),
    es.foldl saveEntry c = { rdb := c.rdb ++ encodeEntries es, num := c.num + es.length } := by
  intro es
  induction es with
  | nil => intro c; simp [encodeEntries]
  | cons e es ih =>
    intro c
    simp only [List.foldl_cons, ih, saveEntry, encodeEntries, List.length_cons,
      List.append_assoc, List.cons_append, List.nil_append]
    congr 1
    omega

theorem isLeaf_internal (value : ℚ) (md : Nat) (rg : Option NumericRange)
    (l r : NumericRangeNode) (h : l ≠ .null ∨ r ≠ .null) :
    __isLeaf (.node value md rg l r) = false := by
  cases l <;> cases r <;> simp_all [__isLeaf]

/-- The traversal of a well-formed tree with the save callback appends the
entries of the leaves, in pre-order, and counts them. -/
theorem Traverse_save : ∀ (n : NumericRangeNode), WellFormed n → ∀ (c : SaveCtx),
    NumericRangeNode_Traverse __numericIndex_rdbSaveCallback n c
      = some { rdb := c.rdb ++ encodeEntries (leafEntries n),
               num := c.num + (leafEntries n).length } := by
  intro n
  induction n with
  | null => intro h; exact absurd h (by simp [WellFormed])
  | node value md rg l r ihl ihr =>
    intro hwf c
    obtain ⟨_, hshape⟩ := hwf
    rcases hshape with ⟨hl, hr, b, hrg, _⟩ | ⟨hwl, hwr⟩
    · subst hl hr hrg
      simp [NumericRangeNode_Traverse, __numericIndex_rdbSaveCallback, __isLeaf,
        NumericRangeNode.range, saveEntry_foldl, leafEntries, leafBuckets]
    · have hne : l ≠ .null ∨ r ≠ .null := Or.inl (WellFormed_ne_null hwl)
      have hcb : __numericIndex_rdbSaveCallback (.node value md rg l r) c = c := by
        simp [__numericIndex_rdbSaveCallback, isLeaf_internal _ _ _ _ _ hne]
      simp only [NumericRangeNode_Traverse, hcb, WellFormed_ne_null hwl, WellFormed_ne_null hwr,
        if_false, ihl hwl, ihr hwr, leafEntries_internal _ _ _ _ _ hne]
      simp [encodeEntries_append, List.append_assoc, Nat.add_assoc]

theorem loadEntries_encode : ∀ (es : List NumericRangeEntry) (rest : List RdbItem),
    loadEntries es.length (encodeEntries es ++ rest) = some es := by
  intro es
  induction es with
  | nil => intro rest; simp [loadEntries]
  | cons e es ih =>
    intro rest
    simp [encodeEntries, loadEntries, ih rest]

theorem toInt32_small (n : Int) (h0 : 0 ≤ n) (h1 : n < 2 ^ 31) : toInt32 n = n := by
  unfold toInt32
  norm_num at h1 ⊢
  have : n % 4294967296 = n := Int.emod_eq_of_lt h0 (by omega)
  rw [this]
  simp [h1]

/-- On doc-ids below 2^31 the comparator orders by doc-id. -/
theorem cmd_docId_le (a b : NumericRangeEntry) (ha : a.docId < 2 ^ 31) (hb : b.docId < 2 ^ 31) :
    __cmd_docId a b ≤ 0 ↔ a.docId ≤ b.docId := by
  unfold __cmd_docId
  have ha1 : ((a.docId : Int)) < 2 ^ 31 := by exact_mod_cast ha
  have hb1 : ((b.docId : Int)) < 2 ^ 31 := by exact_mod_cast hb
  rw [toInt32_small _ (by omega) ha1, toInt32_small _ (by omega) hb1]
  unfold toInt32
  norm_num at ha1 hb1 ⊢
  split <;> omega

theorem orderedInsert_docId_sorted (a : NumericRangeEntry) (ha : a.docId < 2 ^ 31) :
    ∀ (s : List NumericRangeEntry), (∀ x ∈ s, x.docId < 2 ^ 31) →
      (∀ x ∈ s, x.docId ≠ a.docId) → s.Pairwise (fun x y => x.docId < y.docId) →
      (s.orderedInsert (fun x y => __cmd_docId x y ≤ 0) a).Pairwise
        (fun x y => x.docId < y.docId) := by
  intro s
  induction s with
  | nil => intro _ _ _; simp
  | cons b s ih =>
    intro hlt hne hs
    have hb : b.docId < 2 ^ 31 := hlt b (List.mem_cons_self _ _)
    have hab : b.docId ≠ a.docId := hne b (List.mem_cons_self _ _)
    obtain ⟨hbs, hss⟩ := List.pairwise_cons.mp hs
    simp only [List.orderedInsert]
    split
    · rename_i hle
      have hle1 : a.docId ≤ b.docId := (cmd_docId_le a b ha hb).mp hle
      have hlt1 : a.docId < b.docId := by omega
      refine List.pairwise_cons.mpr ⟨?_, hs⟩
      intro x hx
      rcases List.mem_cons.mp hx with rfl | hx
      · exact hlt1
      · exact lt_trans hlt1 (hbs x hx)
    · rename_i hle
      have hgt : b.docId < a.docId := by
        have : ¬ a.docId ≤ b.docId := fun h => hle ((cmd_docId_le a b ha hb).mpr h)
        omega
      refine List.pairwise_cons.mpr ⟨?_, ?_⟩
      · intro x hx
        rcases (List.mem_orderedInsert _).mp hx with rfl | hx
        · exact hgt
        · exact hbs x hx
      · exact ih (fun x hx => hlt x (List.mem_cons_of_mem _ hx))
          (fun x hx => hne x (List.mem_cons_of_mem _ hx)) hss

theorem qsort_docId_sorted : ∀ (l : List NumericRangeEntry), (∀ x ∈ l, x.docId < 2 ^ 31) →
    (l.map fun e => e.docId).Nodup → (qsort l).Pairwise (fun x y => x.docId < y.docId) := by
  intro l
  induction l with
  | nil => intro _ _; simp [qsort]
  | cons a l ih =>
    intro hlt hnd
    simp only [List.map_cons, List.nodup_cons] at hnd
    have h1 := ih (fun x hx => hlt x (List.mem_cons_of_mem _ hx)) hnd.2
    simp only [qsort, List.insertionSort] at h1 ⊢
    apply orderedInsert_docId_sorted a (hlt a (List.mem_cons_self _ _))
    · intro x hx
      exact hlt x (List.mem_cons_of_mem _ ((List.mem_insertionSort _).mp hx))
    · intro x hx heq
      exact hnd.1 (List.mem_map.mpr ⟨x, (List.mem_insertionSort _).mp hx, heq⟩)
    · exact h1

/-- Sorting any rearrangement of a list whose doc-ids are strictly increasing
and below 2^31 gives the list back. -/
theorem qsort_of_perm (es l : List NumericRangeEntry)
    (hs : es.Pairwise (fun x y => x.docId < y.docId)) (hlt : ∀ e ∈ es, e.docId < 2 ^ 31)
    (hp : l.Perm es) : qsort l = es := by
  have hnd : (l.map fun e => e.docId).Nodup := by
    have h1 : (es.map fun e => e.docId).Pairwise (· < ·) := by
      rw [List.pairwise_map]; exact hs
    have h2 : (es.map fun e => e.docId).Nodup := h1.imp (fun h => Nat.ne_of_lt h)
    exact ((hp.map _).nodup_iff).mpr h2
  have hl : ∀ x ∈ l, x.docId < 2 ^ 31 := fun x hx => hlt x (hp.mem_iff.mp hx)
  have hsorted := qsort_docId_sorted l hl hnd
  have hperm : (qsort l).Perm es := (List.perm_insertionSort _ l).trans hp
  haveI : IsAntisymm NumericRangeEntry (fun x y => x.docId < y.docId) :=
    ⟨fun a b h1 h2 => absurd (lt_trans h1 h2) (lt_irrefl _)⟩
  exact List.eq_of_perm_of_sorted hperm hsorted hs

/-! ## C10 -/

/-- C10: for insertions with strictly increasing doc-ids below 2^31, the tree
`t` they build from a new tree exists; `NumericIndexType_RdbSave` writes the
count `t.numEntries` followed by the pairs of the leaf entries, and that count
equals the number of pairs dumped; `NumericIndexType_RdbLoad` with encoding
version 0 on the stream written returns a tree equal to `t` (root, buckets and
counters), so it has the same `numEntries` and `NumericRangeTree_Find` gives
the same result on it for every range. -/
theorem RdbSave_RdbLoad_roundtrip (es : List NumericRangeEntry)
    (hs : es.Pairwise (fun x y => x.docId < y.docId)) (hlt : ∀ e ∈ es, e.docId < 2 ^ 31) :
    ∃ t ctx, addAll NewNumericRangeTree es = some t ∧
      NumericIndexType_RdbSave t = some ctx ∧
      ctx.rdb = .unsigned t.numEntries :: encodeEntries (leafEntries t.root) ∧
      ctx.num = (leafEntries t.root).length ∧ t.numEntries = ctx.num ∧
      NumericIndexType_RdbLoad ctx.rdb 0 = some t ∧
      ∀ t1, NumericIndexType_RdbLoad ctx.rdb 0 = some t1 →
        t1.numEntries = t.numEntries ∧
        ∀ lo hi, NumericRangeTree_Find t1 lo hi = NumericRangeTree_Find t lo hi := by
  obtain ⟨t, hbuild, hwf, hnum, hperm⟩ := addAll_new es
  have hsave := Traverse_save t.root hwf { rdb := [.unsigned t.numEntries], num := 0 }
  have hload : NumericIndexType_RdbLoad
      (.unsigned t.numEntries :: encodeEntries (leafEntries t.root)) 0 = some t := by
    have hlen : t.numEntries = (leafEntries t.root).length := by
      rw [hnum, hperm.length_eq]
    have hle := loadEntries_encode (leafEntries t.root) []
    rw [List.append_nil] at hle
    simp only [NumericIndexType_RdbLoad, ne_eq, not_true_eq_false, if_false, hlen, hle]
    rw [qsort_of_perm es _ hs hlt hperm]
    exact hbuild
  refine ⟨t, _, hbuild, hsave, by simp, by simp, ?_, by simpa using hload, ?_⟩
  · simp [hnum, hperm.length_eq]
  · intro t1 h1
    have h2 : NumericIndexType_RdbLoad
        ([RdbItem.unsigned t.numEntries] ++ encodeEntries (leafEntries t.root)) 0 = some t := by
      simpa using hload
    rw [h2] at h1
    cases h1
    exact ⟨rfl, fun _ _ => rfl⟩

theorem RdbSave_RdbLoad_roundtrip_witness :
    ∃ t ctx, addAll NewNumericRangeTree insertedC1 = some t ∧
      NumericIndexType_RdbSave t = some ctx ∧
      ctx.rdb = .unsigned t.numEntries :: encodeEntries (leafEntries t.root) ∧
      ctx.num = (leafEntries t.root).length ∧ t.numEntries = ctx.num ∧
      NumericIndexType_RdbLoad ctx.rdb 0 = some t ∧
      ∀ t1, NumericIndexType_RdbLoad ctx.rdb 0 = some t1 →
        t1.numEntries = t.numEntries ∧
        ∀ lo hi, NumericRangeTree_Find t1 lo hi = NumericRangeTree_Find t lo hi :=
  RdbSave_RdbLoad_roundtrip insertedC1 (by decide) (by decide)

theorem wrapEntries_length : wrapEntries.length = 2 ^ 31 + 2 := by
  unfold wrapEntries
  rw [List.length_map, List.length_range]

theorem wrapEntries_get (i : Nat) (h : i < 2 ^ 31 + 2) :
    wrapEntries[i]? = some { docId := i + 1, value := 0 } := by
  unfold wrapEntries
  rw [List.getElem?_map, List.getElem?_range h]
  rfl

theorem cons_of_getElem?_zero {α : Type} (l : List α) (a : α) (h : l[0]? = some a) :
    ∃ rest, l = a :: rest := by
  cases l with
  | nil => simp at h
  | cons b rest =>
    simp at h
    exact ⟨rest, by rw [h]⟩

theorem skipLoop_succ (entries : List NumericRangeEntry) (docId fuel top bottom i : Nat) :
    skipLoop entries docId (fuel + 1) top bottom i =
      if bottom < top then
        match entries[i]? with
        | none => none
        | some e =>
          if e.docId = docId then some i
          else
            if ((if docId ≤ e.docId then bottom else i) + (if docId ≤ e.docId then i else top))
                % UINT_RANGE / 2 = i then some i
            else skipLoop entries docId fuel (if docId ≤ e.docId then i else top)
              (if docId ≤ e.docId then bottom else i)
              (((if docId ≤ e.docId then bottom else i) + (if docId ≤ e.docId then i else top))
                % UINT_RANGE / 2)
      else some i := by
  rfl


theorem NR_SkipTo_of_loop (it : NumericRangeIterator) (d : Nat) (last : NumericRangeEntry)
    (i : Nat) (h1 : it.atEOF = false) (hl : it.rng.entries[it.rng.size - 1]? = some last)
    (hd : d ≤ last.docId)
    (hloop : skipLoop it.rng.entries d (2 * it.rng.size + 2) ((it.rng.size - 1) % UINT_RANGE)
      (it.offset % UINT_RANGE) (it.offset % UINT_RANGE) = some i) :
    NR_SkipTo it d = NR_Read { it with offset := i } := by
  simp [NR_SkipTo, h1, hl, hloop, not_lt.mpr hd]

theorem NR_Read_head (rng : NumericRange) (lastDocId : Nat) (e : NumericRangeEntry)
    (rest : List NumericRangeEntry) (he : rng.entries = e :: rest) (hs : 1 ≠ rng.size) :
    NR_Read { rng := rng, nf := none, lastDocId := lastDocId, offset := 0, atEOF := false }
      = some ({ rng := rng, nf := none, lastDocId := e.docId, offset := 1, atEOF := false },
          .INDEXREAD_OK e.docId) := by
  simp [NR_Read, he, readLoop, passes, hs]

/-- Without wrap-around (`top` below 2^31) the binary search of `NR_SkipTo`
ends within the fuel it is given and stays between `bottom` and `top`. -/
theorem skipLoop_bounds (entries : List NumericRangeEntry) (d : Nat) :
    ∀ (fuel top bottom i : Nat), bottom ≤ i → i < top → top < entries.length →
      top < 2 ^ 31 → 2 * (top - bottom) + (if i = bottom then 1 else 0) < fuel →
      ∃ j, skipLoop entries d fuel top bottom i = some j ∧ bottom ≤ j ∧ j < top := by
  intro fuel
  induction fuel with
  | zero => intro top bottom i _ _ _ _ h; omega
  | succ fuel ih =>
    intro top bottom i hbi hit htl htop hfuel
    have hbt : bottom < top := by omega
    have hi : i < entries.length := by omega
    obtain ⟨e, he⟩ : ∃ e, entries[i]? = some e := ⟨entries[i], List.getElem?_eq_getElem hi⟩
    rw [skipLoop_succ, if_pos hbt, he]
    simp only [UINT_RANGE]
    by_cases heq : e.docId = d
    · exact ⟨i, by simp [heq], hbi, hit⟩
    · by_cases hle : d ≤ e.docId
      · simp only [heq, hle, if_true, if_false]
        have hmod : (bottom + i) % 2 ^ 32 = bottom + i := Nat.mod_eq_of_lt (by omega)
        rw [hmod]
        by_cases hnew : (bottom + i) / 2 = i
        · exact ⟨i, by simp [hnew], hbi, hit⟩
        · simp only [hnew, if_false]
          have h1 : bottom ≤ (bottom + i) / 2 := by omega
          have h2 : (bottom + i) / 2 < i := by omega
          obtain ⟨j, hj, hj1, hj2⟩ := ih i bottom ((bottom + i) / 2) h1 h2 (by omega) (by omega)
            (by split <;> split at hfuel <;> omega)
          exact ⟨j, hj, hj1, by omega⟩
      · simp only [heq, hle, if_false]
        have hmod : (i + top) % 2 ^ 32 = i + top := Nat.mod_eq_of_lt (by omega)
        rw [hmod]
        by_cases hnew : (i + top) / 2 = i
        · exact ⟨i, by simp [hnew], hbi, hit⟩
        · simp only [hnew, if_false]
          have h1 : i ≤ (i + top) / 2 := by omega
          have h2 : (i + top) / 2 < top := by omega
          obtain ⟨j, hj, hj1, hj2⟩ := ih top i ((i + top) / 2) h1 h2 htl htop
            (by split <;> split at hfuel <;> omega)
          exact ⟨j, hj, by omega, hj2⟩

/-- On a bucket of at most 2^31 entries `NR_SkipTo` on a non-exhausted
iterator returns, and afterwards the iterator is exhausted or its cursor
offset is strictly greater than before. -/
theorem NR_SkipTo_advances (it : NumericRangeIterator) (d : Nat) (h1 : it.atEOF = false)
    (h2 : it.offset < it.rng.size) (h3 : it.rng.size ≤ 2 ^ 31) :
    ∃ it1 r, NR_SkipTo it d = some (it1, r) ∧ ValidIter it1 ∧ it1.rng = it.rng ∧
      it.offset ≤ it1.offset ∧ (it1.atEOF = true ∨ it.offset < it1.offset) := by
  have hsz : it.rng.size = it.rng.entries.length := rfl
  have hlast : it.rng.size - 1 < it.rng.entries.length := by omega
  obtain ⟨last, hl⟩ : ∃ e, it.rng.entries[it.rng.size - 1]? = some e :=
    ⟨it.rng.entries[it.rng.size - 1], List.getElem?_eq_getElem hlast⟩
  by_cases hd : d > last.docId
  · refine ⟨{ it with atEOF := true }, .INDEXREAD_EOF, by simp [NR_SkipTo, h1, hl, hd],
      Or.inl rfl, rfl, le_refl _, Or.inl rfl⟩
  · have hm1 : (it.rng.size - 1) % UINT_RANGE = it.rng.size - 1 :=
      Nat.mod_eq_of_lt (by simp only [UINT_RANGE]; omega)
    have hm2 : it.offset % UINT_RANGE = it.offset :=
      Nat.mod_eq_of_lt (by simp only [UINT_RANGE]; omega)
    have hloop : ∃ j, skipLoop it.rng.entries d (2 * it.rng.size + 2) (it.rng.size - 1)
        it.offset it.offset = some j ∧ it.offset ≤ j ∧ j < it.rng.size := by
      by_cases hbt : it.offset < it.rng.size - 1
      · obtain ⟨j, hj, hj1, hj2⟩ := skipLoop_bounds it.rng.entries d (2 * it.rng.size + 2)
          (it.rng.size - 1) it.offset it.offset (le_refl _) hbt hlast (by omega)
          (by simp; omega)
        exact ⟨j, hj, hj1, by omega⟩
      · exact ⟨it.offset, by rw [skipLoop_succ, if_neg hbt], le_refl _, h2⟩
    obtain ⟨j, hj, hj1, hj2⟩ := hloop
    have hv : ValidIter { it with offset := j } := Or.inr hj2
    obtain ⟨it1, r, hr, hv1, hrng, _, _, hlt, _⟩ := NR_Read_step { it with offset := j } hv
    refine ⟨it1, r, ?_, hv1, hrng, ?_, Or.inr ?_⟩
    · simp only [NR_SkipTo, h1, hl, hd, hm1, hm2, hj, Bool.false_eq_true, if_false]
      rw [h1] at hr
      exact hr
    · have := hlt h1
      simp at this
      omega
    · have := hlt h1
      simp at this
      omega

/-! ## C6 -/

theorem wrapIterator_skipLoop (f : Nat) :
    skipLoop wrapEntries 3 (f + 1 + 1) 2147483649 2147483648 2147483648 = some 0 := by
  have g2 : wrapEntries[2147483648]? = some { docId := 2147483649, value := 0 } :=
    wrapEntries_get 2147483648 (by norm_num)
  rw [skipLoop_succ, g2]
  simp only [UINT_RANGE, reduceIte, Nat.reduceLT, Nat.reduceLeDiff, Nat.reduceEqDiff,
    Nat.reduceAdd, Nat.reduceMod, Nat.reduceDiv, Nat.reducePow]
  rw [skipLoop_succ]
  simp only [reduceIte, Nat.reduceLT, Nat.lt_irrefl]

/-- C6 (the cursor can move backwards): the 32-bit sum `bottom + top` of the
binary search wraps around once the cursor is at or beyond 2^31. On a bucket
of 2^31 + 2 entries with doc-ids 1, 2, 3, ... and the cursor at offset 2^31
(not exhausted), `NR_SkipTo(3)` computes `newi = (2^31 + 2^31) mod 2^32 / 2
= 0`, leaves the search at index 0 and reads the first entry again: it
returns doc-id 1 and the cursor offset drops from 2^31 to 1, without the
iterator being exhausted. -/
theorem NR_SkipTo_moves_backwards :
    wrapIterator.atEOF = false ∧ wrapIterator.offset = 2 ^ 31 ∧
    wrapIterator.rng.size = 2 ^ 31 + 2 ∧
    NR_SkipTo wrapIterator 3
      = some ({ rng := wrapIterator.rng, nf := none, lastDocId := 1, offset := 1,
                atEOF := false }, .INDEXREAD_OK 1) := by
  have h1 : wrapIterator.atEOF = false := by simp only [wrapIterator]
  have h2 : wrapIterator.rng.size = 2147483650 := by
    simp only [wrapIterator, NumericRange.size, wrapEntries_length, Nat.reducePow, Nat.reduceAdd]
  have h3 : wrapIterator.rng.entries = wrapEntries := by simp only [wrapIterator]
  have h4 : wrapIterator.offset = 2147483648 := by
    simp only [wrapIterator, Nat.reducePow]
  have h5 : wrapIterator.nf = none := by simp only [wrapIterator]
  have g1 : wrapEntries[2147483649]? = some { docId := 2147483650, value := 0 } :=
    wrapEntries_get 2147483649 (by norm_num)
  have g3 : wrapEntries[0]? = some { docId := 1, value := 0 } :=
    wrapEntries_get 0 (by norm_num)
  obtain ⟨rest, hrest⟩ := cons_of_getElem?_zero _ _ g3
  have hl : wrapIterator.rng.entries[wrapIterator.rng.size - 1]?
      = some { docId := 2147483650, value := 0 } := by
    rw [h2, h3, show (2147483650 : Nat) - 1 = 2147483649 from by decide]
    exact g1
  have hloop : skipLoop wrapIterator.rng.entries 3 (2 * wrapIterator.rng.size + 2)
      ((wrapIterator.rng.size - 1) % UINT_RANGE) (wrapIterator.offset % UINT_RANGE)
      (wrapIterator.offset % UINT_RANGE) = some 0 := by
    rw [h2, h3, h4, show (2 * 2147483650 + 2 : Nat) = 4294967300 + 1 + 1 from by decide,
      show (2147483650 - 1) % UINT_RANGE = 2147483649 from by decide,
      show 2147483648 % UINT_RANGE = 2147483648 from by decide]
    exact wrapIterator_skipLoop 4294967300
  have hs : (1 : Nat) ≠ wrapIterator.rng.size := by
    rw [h2]
    decide
  refine ⟨h1, by rw [h4]; simp only [Nat.reducePow],
    by rw [h2]; simp only [Nat.reducePow, Nat.reduceAdd], ?_⟩
  rw [NR_SkipTo_of_loop wrapIterator 3 _ 0 h1 hl (by decide) hloop, h5, h1]
  exact NR_Read_head wrapIterator.rng wrapIterator.lastDocId _ rest (h3.trans hrest) hs

theorem AllNodes_iff (P : NumericRangeNode → Prop) : ∀ (n : NumericRangeNode),
    AllNodes P n ↔ ∀ s ∈ subnodes n, P s := by
  intro n
  induction n with
  | null => simp [AllNodes, subnodes]
  | node value md rg l r ihl ihr =>
    simp only [AllNodes, subnodes, List.mem_cons, List.mem_append, ihl, ihr]
    constructor
    · rintro ⟨h1, h2, h3⟩ s (rfl | hs | hs)
      · exact h1
      · exact h2 s hs
      · exact h3 s hs
    · intro h
      exact ⟨h _ (Or.inl rfl), fun s hs => h s (Or.inr (Or.inl hs)),
        fun s hs => h s (Or.inr (Or.inr hs))⟩

theorem NumericRangeNode_Add_ne_null : ∀ (n : NumericRangeNode) (d : Nat) (v : ℚ)
    (n1 : NumericRangeNode) (rc : Nat),
    NumericRangeNode_Add n d v = some (n1, rc) → n1 ≠ .null := by
  intro n d v n1 rc h
  cases n with
  | null => simp [NumericRangeNode_Add] at h
  | node value md rg l r =>
    by_cases hleaf : l = .null ∧ r = .null
    · obtain ⟨hl, hr⟩ := hleaf
      subst hl hr
      cases rg with
      | none => simp [NumericRangeNode_Add] at h
      | some b =>
        simp only [NumericRangeNode_Add] at h
        split at h
        · split at h
          · cases h
          · cases h; simp
        · cases h; simp
    · have hne : l ≠ .null ∨ r ≠ .null := by
        by_cases hl : l = .null
        · exact Or.inr (fun hr => hleaf ⟨hl, hr⟩)
        · exact Or.inl hl
      rw [NumericRangeNode_Add_internal _ _ _ _ _ _ _ hne] at h
      split at h
      · split at h
        · cases h
        · rename_i l1 rc1 _
          obtain ⟨md1, rg1, hage, _⟩ := ageNode_spec value md
            (rg.map fun b => (NumericRange_Add b d v false).1) l1 r rc1
          rw [hage] at h
          cases h; simp
      · split at h
        · cases h
        · rename_i r1 rc1 _
          obtain ⟨md1, rg1, hage, _⟩ := ageNode_spec value md
            (rg.map fun b => (NumericRange_Add b d v false).1) l r1 rc1
          rw [hage] at h
          cases h; simp

/-- The three ways an insertion into a node succeeds: a leaf that stays a
leaf, a leaf that is split, an internal node that hands the entry to its left
or to its right child and then ages. -/
theorem NumericRangeNode_Add_cases (n : NumericRangeNode) (d : Nat) (v : ℚ)
    (n1 : NumericRangeNode) (rc : Nat) (h : NumericRangeNode_Add n d v = some (n1, rc)) :
    (∃ value md b, n = .node value md (some b) .null .null ∧ rc = 0 ∧
        n1 = .node value md (some (NumericRange_Add b d v true).1) .null .null) ∨
    (∃ value md b split lr rr, n = .node value md (some b) .null .null ∧ rc = 1 ∧
        n1 = .node split 1 (some (NumericRange_Add b d v true).1) (leafOf lr) (leafOf rr) ∧
        lr.entries = (NumericRange_Add b d v true).1.entries.filter
          (fun e => decide (e.value < split)) ∧
        rr.entries = (NumericRange_Add b d v true).1.entries.filter
          (fun e => !decide (e.value < split))) ∨
    (∃ value md rg l r l1, n = .node value md rg l r ∧ (l ≠ .null ∨ r ≠ .null) ∧ v < value ∧
        NumericRangeNode_Add l d v = some (l1, rc) ∧
        (n1, rc) = ageNode value md (rg.map fun b => (NumericRange_Add b d v false).1) l1 r rc) ∨
    (∃ value md rg l r r1, n = .node value md rg l r ∧ (l ≠ .null ∨ r ≠ .null) ∧ ¬ v < value ∧
        NumericRangeNode_Add r d v = some (r1, rc) ∧
        (n1, rc) = ageNode value md (rg.map fun b => (NumericRange_Add b d v false).1) l r1 rc) := by
  cases n with
  | null => simp [NumericRangeNode_Add] at h
  | node value md rg l r =>
    by_cases hleaf : l = .null ∧ r = .null
    · obtain ⟨hl, hr⟩ := hleaf
      subst hl hr
      cases rg with
      | none => simp [NumericRangeNode_Add] at h
      | some b =>
        obtain ⟨hstay, hsplit⟩ := NumericRangeNode_Add_leaf value md b d v
        by_cases hthr : (NumericRange_Add b d v true).1.card
            < (NumericRange_Add b d v true).1.splitCard
        · rw [hstay hthr] at h
          cases h
          exact Or.inl ⟨value, md, b, rfl, rfl, rfl⟩
        · obtain ⟨split, lr, rr, _, hadd, hle, hre, _⟩ := hsplit (by omega)
          rw [hadd] at h
          cases h
          exact Or.inr (Or.inl ⟨value, md, b, split, lr, rr, rfl, rfl, rfl, hle, hre⟩)
    · have hne : l ≠ .null ∨ r ≠ .null := by
        by_cases hl : l = .null
        · exact Or.inr (fun hr => hleaf ⟨hl, hr⟩)
        · exact Or.inl hl
      rw [NumericRangeNode_Add_internal _ _ _ _ _ _ _ hne] at h
      by_cases hlt : v < value
      · rw [if_pos hlt] at h
        cases hl : NumericRangeNode_Add l d v with
        | none => rw [hl] at h; cases h
        | some p =>
          obtain ⟨l1, rc1⟩ := p
          rw [hl] at h
          simp only [Option.some.injEq] at h
          obtain ⟨md1, rg1, hage, _⟩ := ageNode_spec value md
            (rg.map fun b => (NumericRange_Add b d v false).1) l1 r rc1
          have hrc : rc1 = rc := by rw [hage] at h; cases h; rfl
          subst hrc
          exact Or.inr (Or.inr (Or.inl ⟨value, md, rg, l, r, l1, rfl, hne, hlt, hl, h.symm⟩))
      · rw [if_neg hlt] at h
        cases hr : NumericRangeNode_Add r d v with
        | none => rw [hr] at h; cases h
        | some p =>
          obtain ⟨r1, rc1⟩ := p
          rw [hr] at h
          simp only [Option.some.injEq] at h
          obtain ⟨md1, rg1, hage, _⟩ := ageNode_spec value md
            (rg.map fun b => (NumericRange_Add b d v false).1) l r1 rc1
          have hrc : rc1 = rc := by rw [hage] at h; cases h; rfl
          subst hrc
          exact Or.inr (Or.inr (Or.inr ⟨value, md, rg, l, r, r1, rfl, hne, hlt, hr, h.symm⟩))

theorem ageNode_buckets (value : ℚ) (md : Nat) (rg : Option NumericRange)
    (l r n1 : NumericRangeNode) (rc : Nat) (d : Nat) (v : ℚ)
    (h : (n1, rc) = ageNode value md (rg.map fun b => (NumericRange_Add b d v false).1) l r rc) :
    ∃ md1 rg1, n1 = .node value md1 rg1 l r ∧
      (∀ b1, rg1 = some b1 → ∃ b0, rg = some b0 ∧ b1 = (NumericRange_Add b0 d v false).1) ∧
      (rg = none → rg1 = none) := by
  obtain ⟨md1, rg1, hage, hrg⟩ := ageNode_spec value md
    (rg.map fun b => (NumericRange_Add b d v false).1) l r rc
  rw [hage] at h
  have hn : n1 = .node value md1 rg1 l r := by cases h; rfl
  refine ⟨md1, rg1, hn, ?_, ?_⟩
  · intro b1 hb1
    rcases hrg with h1 | h1
    · rw [h1] at hb1
      cases rg with
      | none => simp at hb1
      | some b0 => exact ⟨b0, rfl, by simpa using hb1.symm⟩
    · rw [h1] at hb1; cases hb1
  · intro hnone
    rcases hrg with h1 | h1
    · rw [h1, hnone]; rfl
    · exact h1

/-- Every bucket of the tree after an insertion holds a sub-sequence of the
entries of some bucket of the tree before it, followed by the new entry. -/
theorem NumericRangeNode_Add_buckets : ∀ (n : NumericRangeNode) (d : Nat) (v : ℚ)
    (n1 : NumericRangeNode) (rc : Nat), NumericRangeNode_Add n d v = some (n1, rc) →
    ∀ b1 ∈ buckets n1, ∃ b ∈ buckets n,
      b1.entries.Sublist (b.entries ++ [{ docId := d, value := v }]) := by
  intro n
  induction n with
  | null => intro d v n1 rc h; simp [NumericRangeNode_Add] at h
  | node value md rg l r ihl ihr =>
    intro d v n1 rc h b1 hb1
    rcases NumericRangeNode_Add_cases _ d v n1 rc h with
      ⟨value1, md1, b, hn, _, hn1⟩ | ⟨value1, md1, b, split, lr, rr, hn, _, hn1, hle, hre⟩ |
      ⟨value1, md1, rg0, l0, r0, l1, hn, _, _, hadd, hage⟩ |
      ⟨value1, md1, rg0, l0, r0, r1, hn, _, _, hadd, hage⟩
    · cases hn
      subst hn1
      simp only [buckets, Option.toList, List.append_nil, List.mem_singleton] at hb1
      subst hb1
      exact ⟨b, by simp [buckets], by rw [NumericRange_Add_entries]⟩
    · cases hn
      subst hn1
      simp only [buckets, leafOf, Option.toList, List.append_nil, List.mem_append,
        List.mem_singleton, List.singleton_append, List.mem_cons, List.not_mem_nil,
        or_false] at hb1
      refine ⟨b, by simp [buckets], ?_⟩
      rcases hb1 with rfl | rfl | rfl
      · rw [NumericRange_Add_entries]
      · rw [hle, NumericRange_Add_entries]; exact List.filter_sublist _
      · rw [hre, NumericRange_Add_entries]; exact List.filter_sublist _
    · cases hn
      obtain ⟨md2, rg1, hn1, hrg1, _⟩ := ageNode_buckets _ _ _ _ _ _ _ _ _ hage
      subst hn1
      simp only [buckets, List.mem_append] at hb1
      rcases hb1 with hb1 | hb1 | hb1
      · cases rg1 with
        | none => simp at hb1
        | some b2 =>
          have : b1 = b2 := by simpa using hb1
          subst this
          obtain ⟨b0, hrg, hb⟩ := hrg1 b1 rfl
          subst hrg
          refine ⟨b0, by simp [buckets], ?_⟩
          rw [hb, NumericRange_Add_entries]
      · obtain ⟨b, hb, hsub⟩ := ihl d v l1 rc hadd b1 hb1
        exact ⟨b, by simp [buckets, hb], hsub⟩
      · exact ⟨b1, by simp [buckets, hb1], List.sublist_append_left _ _⟩
    · cases hn
      obtain ⟨md2, rg1, hn1, hrg1, _⟩ := ageNode_buckets _ _ _ _ _ _ _ _ _ hage
      subst hn1
      simp only [buckets, List.mem_append] at hb1
      rcases hb1 with hb1 | hb1 | hb1
      · cases rg1 with
        | none => simp at hb1
        | some b2 =>
          have : b1 = b2 := by simpa using hb1
          subst this
          obtain ⟨b0, hrg, hb⟩ := hrg1 b1 rfl
          subst hrg
          refine ⟨b0, by simp [buckets], ?_⟩
          rw [hb, NumericRange_Add_entries]
      · exact ⟨b1, by simp [buckets, hb1], List.sublist_append_left _ _⟩
      · obtain ⟨b, hb, hsub⟩ := ihr d v r1 rc hadd b1 hb1
        exact ⟨b, by simp [buckets, hb], hsub⟩

theorem AllNodes_leafOf (P : NumericRangeNode → Prop) (b : NumericRange) (h : P (leafOf b)) :
    AllNodes P (leafOf b) := by
  simp only [leafOf, AllNodes, and_true]
  exact h

/-- The search-tree ordering is kept by an insertion. -/
theorem NumericRangeNode_Add_ordered : ∀ (n : NumericRangeNode) (d : Nat) (v : ℚ)
    (n1 : NumericRangeNode) (rc : Nat), NumericRangeNode_Add n d v = some (n1, rc) →
    AllNodes OrderedAt n → AllNodes OrderedAt n1 := by
  intro n
  induction n with
  | null => intro d v n1 rc h; simp [NumericRangeNode_Add] at h
  | node value md rg l r ihl ihr =>
    intro d v n1 rc h hord
    rcases NumericRangeNode_Add_cases _ d v n1 rc h with
      ⟨value1, md1, b, hn, _, hn1⟩ | ⟨value1, md1, b, split, lr, rr, hn, _, hn1, hle, hre⟩ |
      ⟨value1, md1, rg0, l0, r0, l1, hn, _, hlt, hadd, hage⟩ |
      ⟨value1, md1, rg0, l0, r0, r1, hn, _, hlt, hadd, hage⟩
    · subst hn1
      simp [AllNodes, OrderedAt, buckets]
    · subst hn1
      refine ⟨⟨?_, ?_⟩, AllNodes_leafOf _ _ (by simp [leafOf, OrderedAt, buckets]),
        AllNodes_leafOf _ _ (by simp [leafOf, OrderedAt, buckets])⟩
      · intro b1 hb1 e he
        simp only [leafOf, buckets, Option.toList, List.append_nil, List.mem_singleton] at hb1
        subst hb1
        rw [hle] at he
        simpa using (List.mem_filter.mp he).2
      · intro b1 hb1 e he
        simp only [leafOf, buckets, Option.toList, List.append_nil, List.mem_singleton] at hb1
        subst hb1
        rw [hre] at he
        simpa using (List.mem_filter.mp he).2
    · cases hn
      obtain ⟨md2, rg1, hn1, _, _⟩ := ageNode_buckets _ _ _ _ _ _ _ _ _ hage
      subst hn1
      obtain ⟨⟨hol, hor⟩, hal, har⟩ := hord
      refine ⟨⟨?_, hor⟩, ihl d v l1 rc hadd hal, har⟩
      intro b1 hb1 e he
      obtain ⟨b, hb, hsub⟩ := NumericRangeNode_Add_buckets l d v l1 rc hadd b1 hb1
      rcases List.mem_append.mp (hsub.subset he) with h1 | h1
      · exact hol b hb e h1
      · simp only [List.mem_singleton] at h1
        subst h1
        exact hlt
    · cases hn
      obtain ⟨md2, rg1, hn1, _, _⟩ := ageNode_buckets _ _ _ _ _ _ _ _ _ hage
      subst hn1
      obtain ⟨⟨hol, hor⟩, hal, har⟩ := hord
      refine ⟨⟨hol, ?_⟩, hal, ihr d v r1 rc hadd har⟩
      intro b1 hb1 e he
      obtain ⟨b, hb, hsub⟩ := NumericRangeNode_Add_buckets r d v r1 rc hadd b1 hb1
      rcases List.mem_append.mp (hsub.subset he) with h1 | h1
      · exact hor b hb e h1
      · simp only [List.mem_singleton] at h1
        subst h1
        exact not_lt.mp hlt

/-- The counter test of the retention step keeps the link between owning a
bucket and the counter. -/
theorem ageNode_shape (value : ℚ) (md : Nat) (rg : Option NumericRange)
    (l r n1 : NumericRangeNode) (rc : Nat) (h : (n1, rc) = ageNode value md rg l r rc)
    (hs : rg.isSome = true ↔ md ≤ NR_MAX_DEPTH) :
    ∃ md1 rg1, n1 = .node value md1 rg1 l r ∧ (rg1.isSome = true ↔ md1 ≤ NR_MAX_DEPTH) := by
  unfold ageNode at h
  split at h
  · split at h
    · rename_i hc
      cases h
      exact ⟨md + 1, none, rfl, by simp; omega⟩
    · rename_i hc
      cases h
      refine ⟨md + 1, rg, rfl, ?_⟩
      constructor
      · intro hsome
        by_contra hgt
        exact hc ⟨by omega, hsome⟩
      · intro hle
        exact hs.mpr (by omega)
  · cases h
    exact ⟨md, rg, rfl, hs⟩

/-- The node shape is kept by an insertion. -/
theorem NumericRangeNode_Add_shape : ∀ (n : NumericRangeNode) (d : Nat) (v : ℚ)
    (n1 : NumericRangeNode) (rc : Nat), NumericRangeNode_Add n d v = some (n1, rc) →
    AllNodes ShapeOK n → AllNodes ShapeOK n1 := by
  intro n
  induction n with
  | null => intro d v n1 rc h; simp [NumericRangeNode_Add] at h
  | node value md rg l r ihl ihr =>
    intro d v n1 rc h hsh
    rcases NumericRangeNode_Add_cases _ d v n1 rc h with
      ⟨value1, md1, b, hn, _, hn1⟩ | ⟨value1, md1, b, split, lr, rr, hn, _, hn1, hle, hre⟩ |
      ⟨value1, md1, rg0, l0, r0, l1, hn, hne, hlt, hadd, hage⟩ |
      ⟨value1, md1, rg0, l0, r0, r1, hn, hne, hlt, hadd, hage⟩
    · subst hn1
      simp [AllNodes, ShapeOK]
    · subst hn1
      refine ⟨?_, AllNodes_leafOf _ _ (by simp [leafOf, ShapeOK]),
        AllNodes_leafOf _ _ (by simp [leafOf, ShapeOK])⟩
      simp [ShapeOK, leafOf, NR_MAX_DEPTH]
    · cases hn
      obtain ⟨⟨hiff, _, hret⟩, hal, har⟩ := hsh
      have hl : l ≠ .null := by
        rcases hne with h1 | h1
        · exact h1
        · exact fun h2 => h1 (hiff.mp h2)
      have hr : r ≠ .null := fun h2 => hl (hiff.mpr h2)
      have hl1 : l1 ≠ .null := NumericRangeNode_Add_ne_null l d v l1 rc hadd
      obtain ⟨md2, rg1, hn1, hrg1⟩ := ageNode_shape _ _ _ _ _ _ _ hage
        (by simpa using hret hl)
      subst hn1
      refine ⟨⟨?_, ?_, fun _ => hrg1⟩, ihl d v l1 rc hadd hal, har⟩
      · exact ⟨fun h2 => absurd h2 hl1, fun h2 => absurd h2 hr⟩
      · exact fun h2 => absurd h2 hl1
    · cases hn
      obtain ⟨⟨hiff, _, hret⟩, hal, har⟩ := hsh
      have hl : l ≠ .null := by
        rcases hne with h1 | h1
        · exact h1
        · exact fun h2 => h1 (hiff.mp h2)
      have hr1 : r1 ≠ .null := NumericRangeNode_Add_ne_null r d v r1 rc hadd
      obtain ⟨md2, rg1, hn1, hrg1⟩ := ageNode_shape _ _ _ _ _ _ _ hage
        (by simpa using hret hl)
      subst hn1
      refine ⟨⟨?_, ?_, fun _ => hrg1⟩, hal, ihr d v r1 rc hadd har⟩
      · exact ⟨fun h2 => absurd h2 hl, fun h2 => absurd h2 hr1⟩
      · exact fun h2 => absurd h2 hl

theorem WellFormed_children (value : ℚ) (md : Nat) (rg : Option NumericRange)
    (l r : NumericRangeNode) (h : WellFormed (.node value md rg l r))
    (hne : l ≠ .null ∨ r ≠ .null) : WellFormed l ∧ WellFormed r := by
  obtain ⟨_, hshape⟩ := h
  rcases hshape with ⟨hl, hr, _⟩ | hw
  · rcases hne with h1 | h1
    · exact absurd hl h1
    · exact absurd hr h1
  · exact hw

/-- Insertion keeps every owned bucket equal, as a multiset, to the entries of
the leaves below its node. -/
theorem NumericRangeNode_Add_mirror : ∀ (n : NumericRangeNode) (d : Nat) (v : ℚ)
    (n1 : NumericRangeNode) (rc : Nat), NumericRangeNode_Add n d v = some (n1, rc) →
    WellFormed n → AllNodes MirrorAt n → AllNodes MirrorAt n1 := by
  intro n
  induction n with
  | null => intro d v n1 rc h; simp [NumericRangeNode_Add] at h
  | node value md rg l r ihl ihr =>
    intro d v n1 rc h hwf hmir
    obtain ⟨n2, rc2, hadd2, _, _, _, hperm⟩ :=
      NumericRangeNode_Add_spec (.node value md rg l r) d v hwf
    rw [h] at hadd2
    cases hadd2
    rcases NumericRangeNode_Add_cases _ d v n1 rc h with
      ⟨value1, md1, b, hn, _, hn1⟩ | ⟨value1, md1, b, split, lr, rr, hn, _, hn1, hle, hre⟩ |
      ⟨value1, md1, rg0, l0, r0, l1, hn, hne, hlt, hadd, hage⟩ |
      ⟨value1, md1, rg0, l0, r0, r1, hn, hne, hlt, hadd, hage⟩
    · subst hn1
      refine ⟨?_, trivial, trivial⟩
      intro b1 hb1
      simp only [NumericRangeNode.range, Option.some.injEq] at hb1
      subst hb1
      simp [leafEntries, leafBuckets]
    · subst hn1
      have hleaf : ∀ x : NumericRange, MirrorAt (leafOf x) := by
        intro x b1 hb1
        simp only [leafOf, NumericRangeNode.range, Option.some.injEq] at hb1
        subst hb1
        simp [leafOf, leafEntries, leafBuckets]
      refine ⟨?_, AllNodes_leafOf _ _ (hleaf lr), AllNodes_leafOf _ _ (hleaf rr)⟩
      intro b1 hb1
      simp only [NumericRangeNode.range, Option.some.injEq] at hb1
      subst hb1
      simp only [leafEntries, leafBuckets, leafOf, Option.toList, List.flatMap_cons,
        List.flatMap_nil, List.append_nil, List.singleton_append]
      rw [hle, hre]
      exact (List.filter_append_perm _ _).symm
    · cases hn
      obtain ⟨hwl, _⟩ := WellFormed_children _ _ _ _ _ hwf hne
      obtain ⟨md2, rg1, hn1, hrg1, _⟩ := ageNode_buckets _ _ _ _ _ _ _ _ _ hage
      subst hn1
      obtain ⟨hm, hal, har⟩ := hmir
      refine ⟨?_, ihl d v l1 rc hadd hwl hal, har⟩
      intro b1 hb1
      simp only [NumericRangeNode.range] at hb1
      obtain ⟨b0, hrg, hb⟩ := hrg1 b1 hb1
      have h0 := hm b0 (by simp [NumericRangeNode.range, hrg])
      rw [hb, NumericRange_Add_entries]
      exact (List.Perm.append_right _ h0).trans hperm.symm
    · cases hn
      obtain ⟨_, hwr⟩ := WellFormed_children _ _ _ _ _ hwf hne
      obtain ⟨md2, rg1, hn1, hrg1, _⟩ := ageNode_buckets _ _ _ _ _ _ _ _ _ hage
      subst hn1
      obtain ⟨hm, hal, har⟩ := hmir
      refine ⟨?_, hal, ihr d v r1 rc hadd hwr har⟩
      intro b1 hb1
      simp only [NumericRangeNode.range] at hb1
      obtain ⟨b0, hrg, hb⟩ := hrg1 b1 hb1
      have h0 := hm b0 (by simp [NumericRangeNode.range, hrg])
      rw [hb, NumericRange_Add_entries]
      exact (List.Perm.append_right _ h0).trans hperm.symm

theorem nodeAt_null (p : List Bool) : nodeAt .null p = .null := by
  cases p <;> rfl

/-- A released bucket is not created again by an insertion: the node at the
same path still has children and no bucket. -/
theorem NumericRangeNode_Add_released : ∀ (n : NumericRangeNode) (d : Nat) (v : ℚ)
    (n1 : NumericRangeNode) (rc : Nat), NumericRangeNode_Add n d v = some (n1, rc) →
    ∀ p, Released (nodeAt n p) → Released (nodeAt n1 p) := by
  intro n
  induction n with
  | null => intro d v n1 rc h; simp [NumericRangeNode_Add] at h
  | node value md rg l r ihl ihr =>
    intro d v n1 rc h p hrel
    rcases NumericRangeNode_Add_cases _ d v n1 rc h with
      ⟨value1, md1, b, hn, _, hn1⟩ | ⟨value1, md1, b, split, lr, rr, hn, _, hn1, hle, hre⟩ |
      ⟨value1, md1, rg0, l0, r0, l1, hn, hne, hlt, hadd, hage⟩ |
      ⟨value1, md1, rg0, l0, r0, r1, hn, hne, hlt, hadd, hage⟩
    · cases hn
      cases p with
      | nil => simp [nodeAt, Released] at hrel
      | cons c p => cases c <;> simp [nodeAt, nodeAt_null, Released] at hrel
    · cases hn
      cases p with
      | nil => simp [nodeAt, Released] at hrel
      | cons c p => cases c <;> simp [nodeAt, nodeAt_null, Released] at hrel
    · cases hn
      obtain ⟨md2, rg1, hn1, _, hnone⟩ := ageNode_buckets _ _ _ _ _ _ _ _ _ hage
      subst hn1
      have hl1 : l1 ≠ .null := NumericRangeNode_Add_ne_null l d v l1 rc hadd
      cases p with
      | nil =>
        simp only [nodeAt, Released] at hrel ⊢
        exact ⟨hnone hrel.1, Or.inl hl1⟩
      | cons c p =>
        cases c
        · simp only [nodeAt] at hrel ⊢
          exact ihl d v l1 rc hadd p hrel
        · simp only [nodeAt] at hrel ⊢
          exact hrel
    · cases hn
      obtain ⟨md2, rg1, hn1, _, hnone⟩ := ageNode_buckets _ _ _ _ _ _ _ _ _ hage
      subst hn1
      have hr1 : r1 ≠ .null := NumericRangeNode_Add_ne_null r d v r1 rc hadd
      cases p with
      | nil =>
        simp only [nodeAt, Released] at hrel ⊢
        exact ⟨hnone hrel.1, Or.inr hr1⟩
      | cons c p =>
        cases c
        · simp only [nodeAt] at hrel ⊢
          exact hrel
        · simp only [nodeAt] at hrel ⊢
          exact ihr d v r1 rc hadd p hrel

/-- Insertion of a doc-id at least as large as every doc-id held keeps every
bucket sorted by doc-id, and bounded by the new doc-id. -/
theorem NumericRangeNode_Add_docIdSorted (n : NumericRangeNode) (d : Nat) (v : ℚ)
    (n1 : NumericRangeNode) (rc : Nat) (h : NumericRangeNode_Add n d v = some (n1, rc))
    (hs : ∀ b ∈ buckets n, DocIdSorted b ∧ ∀ e ∈ b.entries, e.docId ≤ d) :
    ∀ b1 ∈ buckets n1, DocIdSorted b1 ∧ ∀ e ∈ b1.entries, e.docId ≤ d := by
  intro b1 hb1
  obtain ⟨b, hb, hsub⟩ := NumericRangeNode_Add_buckets n d v n1 rc h b1 hb1
  obtain ⟨hsorted, hle⟩ := hs b hb
  constructor
  · apply List.Pairwise.sublist hsub
    rw [List.pairwise_append]
    refine ⟨hsorted, List.pairwise_singleton _ _, ?_⟩
    intro x hx y hy
    simp only [List.mem_singleton] at hy
    subst hy
    exact hle x hx
  · intro e he
    rcases List.mem_append.mp (hsub.subset he) with h1 | h1
    · exact hle e h1
    · simp only [List.mem_singleton] at h1
      subst h1
      exact le_refl _

/-- A property of the root that every successful insertion into a well-formed
node keeps holds after any sequence of insertions. -/
theorem addAll_invariant (I : NumericRangeNode → Prop)
    (hstep : ∀ n d v n1 rc, WellFormed n → I n →
      NumericRangeNode_Add n d v = some (n1, rc) → I n1) :
    ∀ (es : List NumericRangeEntry) (t t1 : NumericRangeTree), WellFormed t.root → I t.root →
      addAll t es = some t1 → I t1.root := by
  intro es
  induction es with
  | nil =>
    intro t t1 _ hI h
    simp only [addAll, Option.some.injEq] at h
    subst h
    exact hI
  | cons e es ih =>
    intro t t1 hwf hI h
    obtain ⟨t2, rc, hadd, hwf2, _, hnode, _⟩ := NumericRangeTree_Add_spec t e.docId e.value hwf
    simp only [addAll, hadd] at h
    exact ih t2 t1 hwf2 (hstep _ _ _ _ _ hwf hI hnode) h

theorem built_shape (es : List NumericRangeEntry) (t : NumericRangeTree)
    (h : addAll NewNumericRangeTree es = some t) : AllNodes ShapeOK t.root :=
  addAll_invariant (AllNodes ShapeOK)
    (fun n d v n1 rc _ hI hadd => NumericRangeNode_Add_shape n d v n1 rc hadd hI)
    es NewNumericRangeTree t WellFormed_new
    (by simp [NewNumericRangeTree, NewLeafNode, leafOf, AllNodes, ShapeOK]) h

theorem built_ordered (es : List NumericRangeEntry) (t : NumericRangeTree)
    (h : addAll NewNumericRangeTree es = some t) : AllNodes OrderedAt t.root :=
  addAll_invariant (AllNodes OrderedAt)
    (fun n d v n1 rc _ hI hadd => NumericRangeNode_Add_ordered n d v n1 rc hadd hI)
    es NewNumericRangeTree t WellFormed_new
    (by simp [NewNumericRangeTree, NewLeafNode, leafOf, AllNodes, OrderedAt, buckets]) h

theorem built_mirror (es : List NumericRangeEntry) (t : NumericRangeTree)
    (h : addAll NewNumericRangeTree es = some t) : AllNodes MirrorAt t.root :=
  addAll_invariant (AllNodes MirrorAt)
    (fun n d v n1 rc hwf hI hadd => NumericRangeNode_Add_mirror n d v n1 rc hadd hwf hI)
    es NewNumericRangeTree t WellFormed_new
    (by
      simp only [NewNumericRangeTree, NewLeafNode, leafOf, AllNodes, and_true]
      intro b hb
      simp only [NumericRangeNode.range, Option.some.injEq] at hb
      subst hb
      simp [leafEntries, leafBuckets]) h

theorem built_wellFormed (es : List NumericRangeEntry) (t : NumericRangeTree)
    (h : addAll NewNumericRangeTree es = some t) : WellFormed t.root := by
  obtain ⟨t1, h1, hwf, _⟩ := addAll_new es
  rw [h] at h1
  cases h1
  exact hwf

/-- Insertions with non-decreasing doc-ids, each at least as large as every
doc-id already held, leave every bucket sorted by doc-id. -/
theorem addAll_docIdSorted : ∀ (es : List NumericRangeEntry) (t t1 : NumericRangeTree),
    es.Pairwise (fun a b => a.docId ≤ b.docId) →
    (∀ b ∈ buckets t.root, DocIdSorted b ∧ ∀ e ∈ b.entries, ∀ e1 ∈ es, e.docId ≤ e1.docId) →
    addAll t es = some t1 → ∀ b ∈ buckets t1.root, DocIdSorted b := by
  intro es
  induction es with
  | nil =>
    intro t t1 _ hI h b hb
    simp only [addAll, Option.some.injEq] at h
    subst h
    exact (hI b hb).1
  | cons e es ih =>
    intro t t1 hs hI h
    obtain ⟨hhead, htail⟩ := List.pairwise_cons.mp hs
    cases hadd : NumericRangeNode_Add t.root e.docId e.value with
    | none => simp [addAll, NumericRangeTree_Add, hadd] at h
    | some p =>
      obtain ⟨n1, rc⟩ := p
      simp only [addAll, NumericRangeTree_Add, hadd] at h
      have hstep := NumericRangeNode_Add_docIdSorted t.root e.docId e.value n1 rc hadd
        (fun b hb => ⟨(hI b hb).1, fun x hx => (hI b hb).2 x hx e (List.mem_cons_self _ _)⟩)
      refine ih _ t1 htail ?_ h
      intro b hb
      obtain ⟨h1, h2⟩ := hstep b hb
      exact ⟨h1, fun x hx e1 he1 => le_trans (h2 x hx) (hhead e1 he1)⟩

/-! ## C11 -/

set_option maxRecDepth 100000 in
/-- C11, as stated, fails: in the tree built by the insertions `insertedC1`
the left leaf created by the second split holds the values 1 and 2, yet its
`minVal` is 0 and its `maxVal` is 3 (the split value): neither is the value
of an entry it holds. -/
theorem bucket_bounds_not_tight :
    addAll NewNumericRangeTree insertedC1 = some builtC1 ∧
    leftLeafC1 ∈ buckets builtC1.root ∧ leftLeafC1.entries ≠ [] ∧
    ¬ TrueBounds leftLeafC1 := by
  refine ⟨by decide, by decide, by decide, ?_⟩
  rintro ⟨_, ⟨e, he, hev⟩, _⟩
  simp only [leftLeafC1, List.mem_cons, List.mem_singleton, List.not_mem_nil, or_false] at he hev
  rcases he with rfl | rfl <;> norm_num at hev

/-- C11, amended: in every tree built from a new tree by insertions, every
bucket (of the root, of a leaf created by a split, or retained by an internal
node) has `minVal` at most and `maxVal` at least the value of every entry it
holds. -/
theorem bucket_bounds_enclose (es : List NumericRangeEntry) (t : NumericRangeTree)
    (b : NumericRange) (e : NumericRangeEntry)
    (hbuild : addAll NewNumericRangeTree es = some t)
    (hb : b ∈ buckets t.root) (he : e ∈ b.entries) :
    b.minVal ≤ e.value ∧ e.value ≤ b.maxVal :=
  WellFormed_buckets t.root (built_wellFormed es t hbuild) b hb e he

set_option maxRecDepth 100000 in
theorem bucket_bounds_enclose_witness :
    leftLeafC1.minVal ≤ (⟨4, 2⟩ : NumericRangeEntry).value ∧
    (⟨4, 2⟩ : NumericRangeEntry).value ≤ leftLeafC1.maxVal :=
  bucket_bounds_enclose insertedC1 builtC1 leftLeafC1 ⟨4, 2⟩ (by decide) (by decide) (by decide)

/-! ## C12 -/

/-- C12, as stated, fails: the bucket of a new leaf with min = max = 0 is
reported neither as within nor as containing the query whose bounds are its
own `minVal` and `maxVal`. -/
theorem self_span_not_within :
    NumericRange_Within (some (NewLeafRange 2 0 0 2))
      (NewLeafRange 2 0 0 2).minVal (NewLeafRange 2 0 0 2).maxVal = false ∧
    NumericRange_Contains (some (NewLeafRange 2 0 0 2))
      (NewLeafRange 2 0 0 2).minVal (NewLeafRange 2 0 0 2).maxVal = false := by
  decide

/-- C12, amended: the upper comparison of both tests is strict, so for every
bucket `b` the tests with the bounds `b.minVal`, `b.maxVal` both return
false; `b` is within the query `[b.minVal, hi)` exactly when `b.maxVal < hi`,
and it contains the query `[lo, hi)` exactly when `b.minVal ≤ lo` and
`hi < b.maxVal`. -/
theorem self_span_classification (b : NumericRange) :
    NumericRange_Within (some b) b.minVal b.maxVal = false ∧
    NumericRange_Contains (some b) b.minVal b.maxVal = false ∧
    (∀ hi, NumericRange_Within (some b) b.minVal hi = true ↔ b.maxVal < hi) ∧
    (∀ lo hi, NumericRange_Contains (some b) lo hi = true ↔ b.minVal ≤ lo ∧ hi < b.maxVal) := by
  refine ⟨by simp [NumericRange_Within], by simp [NumericRange_Contains],
    fun hi => by simp [NumericRange_Within], fun lo hi => by simp [NumericRange_Contains]⟩

/-! ## C13 -/

/-- C13: in every tree built from a new tree by insertions, every node has no
child or both children, a node without children owns a bucket, and a node
with children owns a bucket exactly when its counter `maxDepth` is at most
`NR_MAX_DEPTH`; and a further insertion succeeds and leaves every node that
had children and no bucket with children and no bucket (a released bucket is
not created again). -/
theorem node_shape_invariant (es : List NumericRangeEntry) (t : NumericRangeTree)
    (hbuild : addAll NewNumericRangeTree es = some t) :
    (∀ s ∈ subnodes t.root, ShapeOK s) ∧
    (∀ (d : Nat) (v : ℚ), ∃ t1 rc, NumericRangeTree_Add t d v = some (t1, rc) ∧
      ∀ p, Released (nodeAt t.root p) → Released (nodeAt t1.root p)) := by
  refine ⟨(AllNodes_iff ShapeOK t.root).mp (built_shape es t hbuild), ?_⟩
  intro d v
  obtain ⟨t1, rc, hadd, _, _, hnode, _⟩ :=
    NumericRangeTree_Add_spec t d v (built_wellFormed es t hbuild)
  exact ⟨t1, rc, hadd, NumericRangeNode_Add_released t.root d v t1.root rc hnode⟩

set_option maxRecDepth 100000 in
theorem node_shape_invariant_witness :
    (∀ s ∈ subnodes builtC1.root, ShapeOK s) ∧
    (∀ (d : Nat) (v : ℚ), ∃ t1 rc, NumericRangeTree_Add builtC1 d v = some (t1, rc) ∧
      ∀ p, Released (nodeAt builtC1.root p) → Released (nodeAt t1.root p)) :=
  node_shape_invariant insertedC1 builtC1 (by decide)

/-! ## C14 -/

set_option maxRecDepth 100000 in
/-- C14 (the code truncates non-integral values): on the array [5/2, 3/2]
`qselect` returns 1 for rank 0 and 2 for rank 1, where the elements of rank 0
and 1 are 3/2 and 5/2; neither result is an element of the array. Likewise,
inserting 5/2 and 3/2 into a new tree splits the root with the split value 2,
which is not a value of its bucket. -/
theorem qselect_truncates :
    qselect [fiveHalves, threeHalves] 0 = some 1 ∧
    qselect [fiveHalves, threeHalves] 1 = some 2 ∧
    threeHalves < fiveHalves ∧
    (1 : ℚ) ∉ [fiveHalves, threeHalves] ∧ (2 : ℚ) ∉ [fiveHalves, threeHalves] ∧
    ((addAll NewNumericRangeTree insertedHalves).map fun t =>
      match t.root with
      | .null => none
      | .node value _ range _ _ => some (value, range.map fun b => b.entries.map fun e => e.value))
      = some (some (2, some [fiveHalves, threeHalves])) := by
  decide

/-! ## C15 -/

set_option maxRecDepth 100000 in
/-- C15 (an empty result although an entry is in range): after inserting the
value 5 at doc-id 1 into a new tree, `NumericRangeTree_Find(t, 5, 10)` returns
no bucket, because the root leaf has `maxVal = 5` and the lower descent tests
`maxVal > min` strictly; the inserted entry has the value 5 and
`5 ≤ 5 < 10`. -/
theorem NumericRangeTree_Find_empty_but_match :
    ((addAll NewNumericRangeTree [⟨1, 5⟩]).bind fun t => NumericRangeTree_Find t 5 10)
      = some [] ∧
    ((addAll NewNumericRangeTree [⟨1, 5⟩]).map fun t => leafEntries t.root) = some [⟨1, 5⟩] ∧
    inQuery 5 10 false 5 := by
  refine ⟨by decide, by decide, ?_⟩
  unfold inQuery
  norm_num

/-! ## C16 -/

/-- C16: in every tree built from a new tree by insertions, for every node
`n` with split value `s`, every entry of every bucket in the left subtree of
`n` has a value below `s` and every entry of every bucket in its right
subtree has a value at or above `s` (this is `OrderedAt n`). -/
theorem search_tree_ordering (es : List NumericRangeEntry) (t : NumericRangeTree)
    (s : ℚ) (md : Nat) (rg : Option NumericRange) (l r : NumericRangeNode)
    (hbuild : addAll NewNumericRangeTree es = some t)
    (hmem : .node s md rg l r ∈ subnodes t.root) :
    (∀ b ∈ buckets l, ∀ e ∈ b.entries, e.value < s) ∧
    (∀ b ∈ buckets r, ∀ e ∈ b.entries, s ≤ e.value) :=
  (AllNodes_iff OrderedAt t.root).mp (built_ordered es t hbuild) _ hmem

set_option maxRecDepth 100000 in
theorem search_tree_ordering_witness :
    (∀ b ∈ buckets (leafOf leftLeafC1), ∀ e ∈ b.entries, e.value < 3) ∧
    (∀ b ∈ buckets (leafOf ⟨3, 9, 3, 3, 11, [⟨1, 5⟩, ⟨5, 3⟩, ⟨6, 4⟩]⟩),
      ∀ e ∈ b.entries, 3 ≤ e.value) :=
  search_tree_ordering insertedC1 builtC1 3 1
    (some ⟨0, 9, 6, 5, 5, [⟨1, 5⟩, ⟨3, 1⟩, ⟨4, 2⟩, ⟨5, 3⟩, ⟨6, 4⟩]⟩)
    (leafOf leftLeafC1) (leafOf ⟨3, 9, 3, 3, 11, [⟨1, 5⟩, ⟨5, 3⟩, ⟨6, 4⟩]⟩)
    (by decide) (by decide)

/-! ## C17 -/

/-- C17: when the doc-ids of the insertions are non-decreasing, every bucket
of the tree they build from a new tree (of a leaf, also one created by a
split, or retained by an internal node) has its entries in non-decreasing
doc-id order. -/
theorem docId_order_preserved (es : List NumericRangeEntry) (t : NumericRangeTree)
    (b : NumericRange) (hs : es.Pairwise (fun x y => x.docId ≤ y.docId))
    (hbuild : addAll NewNumericRangeTree es = some t) (hb : b ∈ buckets t.root) :
    b.entries.Pairwise (fun x y => x.docId ≤ y.docId) := by
  refine addAll_docIdSorted es NewNumericRangeTree t hs ?_ hbuild b hb
  intro b0 hb0
  simp only [NewNumericRangeTree, NewLeafNode, leafOf, buckets, Option.toList, List.append_nil,
    List.mem_singleton] at hb0
  subst hb0
  simp [DocIdSorted, NewLeafRange]

set_option maxRecDepth 100000 in
theorem docId_order_preserved_witness :
    (⟨3, 9, 3, 3, 11, [⟨1, 5⟩, ⟨5, 3⟩, ⟨6, 4⟩]⟩ : NumericRange).entries.Pairwise
      (fun x y => x.docId ≤ y.docId) :=
  docId_order_preserved insertedC1 builtC1 ⟨3, 9, 3, 3, 11, [⟨1, 5⟩, ⟨5, 3⟩, ⟨6, 4⟩]⟩
    (by decide) (by decide) (by decide)

/-! ## C18 -/

/-- C18: in every tree built from a new tree by insertions, the bucket owned
by a node holds the same multiset of entries as the leaf buckets of the
subtree of that node taken together (for an internal node this is its
retained bucket), and the entries held by the leaves are, as a multiset,
exactly the inserted entries, so that each inserted entry is in one leaf. -/
theorem retained_bucket_mirrors_subtree (es : List NumericRangeEntry) (t : NumericRangeTree)
    (hbuild : addAll NewNumericRangeTree es = some t) :
    (∀ s ∈ subnodes t.root, ∀ b, s.range = some b → b.entries.Perm (leafEntries s)) ∧
    (leafEntries t.root).Perm es := by
  refine ⟨(AllNodes_iff MirrorAt t.root).mp (built_mirror es t hbuild), ?_⟩
  obtain ⟨t1, h1, _, _, hperm⟩ := addAll_new es
  rw [hbuild] at h1
  cases h1
  exact hperm

set_option maxRecDepth 100000 in
theorem retained_bucket_mirrors_subtree_witness :
    (∀ s ∈ subnodes builtC1.root, ∀ b, s.range = some b → b.entries.Perm (leafEntries s)) ∧
    (leafEntries builtC1.root).Perm insertedC1 :=
  retained_bucket_mirrors_subtree insertedC1 builtC1 (by decide)

/-! ## C19 -/

set_option maxRecDepth 100000 in
/-- C19 (a returned bucket can be empty): on the freshly created tree
`NumericRangeTree_Find(t, -1, 1)` returns the bucket of the root, which holds
no entry; `NR_Read` on the iterator created over it reads `entries[0]` and
`NR_SkipTo` reads `entries[size - 1]`, both outside the `size = 0` used
slots. And after inserting the values 5, 5, 5, 7 the split leaves the left
leaf empty, and `NumericRangeTree_Find(t, -1, 6)` returns it. -/
theorem NumericRangeTree_Find_returns_empty_bucket :
    NumericRangeTree_Find NewNumericRangeTree (-1) 1
      = some [⟨[], NewLeafRange 2 0 0 2⟩] ∧
    (NewLeafRange 2 0 0 2).entries = [] ∧
    NR_Read (NewNumericRangeIterator (NewLeafRange 2 0 0 2) aroundZeroFilter) = none ∧
    NR_SkipTo (NewNumericRangeIterator (NewLeafRange 2 0 0 2) aroundZeroFilter) 0 = none ∧
    ((addAll NewNumericRangeTree insertedRepeated).bind fun t =>
        NumericRangeTree_Find t (-1) 6).map (fun leaves => leaves.map fun r => r.rng.entries)
      = some [[], insertedRepeated] := by
  decide

/-! ## C20 -/

end NumericIndex
